import Mathlib

/-!
Verification of the tiered associative memory core (`src/memory/*.ts`,
`src/utils/similarity.ts`, `src/memory/types.ts`).

Embedding conventions:
* JS `Map<string, V>` is modelled as an association list `List (String × V)`
  with JS `Map` semantics: `set` updates an existing key in place (keeping its
  position) and appends a fresh key at the end; iteration order is list order.
* Timestamps (`Date.now()` milliseconds) and all numbers are modelled as `ℚ`;
  the wall clock is threaded as an explicit `now` parameter into every
  operation that calls `Date.now()` in the source.
* `calculateRelevance(e, now) = importance * sqrt(accessCount / (1 + days))`
  is only ever used in comparisons (sorting, thresholding).  Since
  `x ↦ x ^ 2` is strictly monotone on nonnegatives, every such comparison is
  embedded exactly by comparing `relevanceSq = importance ^ 2 *
  (accessCount / (1 + days))` against the squared threshold, valid whenever
  the clock is monotone (`lastAccessed ≤ now`, so `1 + days > 0`) and
  `importance ≥ 0` (it is clamped to `[0, 1]` at creation).
* `generateId()` (a random UUID) is modelled by passing the freshly generated
  id as an explicit argument to each entry-creating operation.
* File I/O: `load()` takes the result of the read-and-parse pipeline as an
  `Except String StorageFormat` value (`.error` covers both a missing file and
  a corrupt document, which throw inside the same `try` block); `save()`
  returns the document it would write, or `none` when it writes nothing.
-/

namespace MemCore

/-! ## Association lists with JS `Map` semantics -/

/-- First-match lookup, like `Map.get`. -/
def mapLookup {β : Type} : List (String × β) → String → Option β
  | [], _ => none
  | (k, v) :: t, a => if k = a then some v else mapLookup t a

/-- `Map.set`: update in place when the key is present, append otherwise. -/
def mapSet {β : Type} : List (String × β) → String → β → List (String × β)
  | [], k, v => [(k, v)]
  | (k', v') :: t, k, v => if k' = k then (k, v) :: t else (k', v') :: mapSet t k v

/-- `Map.delete`: removes the entry for `k` (keys are unique in a JS `Map`). -/
def mapErase {β : Type} (l : List (String × β)) (k : String) : List (String × β) :=
  l.filter (fun p => p.1 ≠ k)

/-- Keys in iteration order. -/
def mapKeys {β : Type} (l : List (String × β)) : List String :=
  l.map Prod.fst

/-- `Map.has`. -/
def mapHas {β : Type} (l : List (String × β)) (k : String) : Bool :=
  (mapLookup l k).isSome

@[simp] theorem mapLookup_nil {β : Type} (a : String) :
    mapLookup ([] : List (String × β)) a = none := rfl

@[simp] theorem mapLookup_cons {β : Type} (k : String) (v : β) (t : List (String × β))
    (a : String) :
    mapLookup ((k, v) :: t) a = if k = a then some v else mapLookup t a := rfl

theorem mapLookup_set_self {β : Type} (l : List (String × β)) (k : String) (v : β) :
    mapLookup (mapSet l k v) k = some v := by
  induction l with
  | nil => simp [mapSet, mapLookup]
  | cons p t ih =>
    obtain ⟨k', v'⟩ := p
    by_cases h : k' = k
    · simp [mapSet, h, mapLookup]
    · simp [mapSet, h, mapLookup, ih]

theorem mapLookup_set_ne {β : Type} (l : List (String × β)) (k a : String) (v : β)
    (h : k ≠ a) : mapLookup (mapSet l k v) a = mapLookup l a := by
  induction l with
  | nil => simp [mapSet, mapLookup, h]
  | cons p t ih =>
    obtain ⟨k', v'⟩ := p
    by_cases hk : k' = k
    · subst hk
      simp [mapSet, mapLookup, h]
    · simp [mapSet, hk, mapLookup, ih]

@[simp] theorem mapErase_nil {β : Type} (k : String) :
    mapErase ([] : List (String × β)) k = [] := rfl

theorem mapErase_cons {β : Type} (k' : String) (v' : β) (t : List (String × β))
    (k : String) :
    mapErase ((k', v') :: t) k =
      if k' = k then mapErase t k else (k', v') :: mapErase t k := by
  by_cases h : k' = k <;> simp [mapErase, List.filter, h]

theorem mapLookup_erase_self {β : Type} (l : List (String × β)) (k : String) :
    mapLookup (mapErase l k) k = none := by
  induction l with
  | nil => rfl
  | cons p t ih =>
    obtain ⟨k', v'⟩ := p
    rw [mapErase_cons]
    by_cases h : k' = k
    · simpa [h] using ih
    · simp [mapLookup, h, ih]

theorem mapLookup_erase_ne {β : Type} (l : List (String × β)) (k a : String)
    (h : a ≠ k) : mapLookup (mapErase l k) a = mapLookup l a := by
  induction l with
  | nil => rfl
  | cons p t ih =>
    obtain ⟨k', v'⟩ := p
    rw [mapErase_cons]
    by_cases hk : k' = k
    · rw [if_pos hk, ih, mapLookup_cons, if_neg (fun hh => h (hh.symm.trans hk))]
    · rw [if_neg hk, mapLookup_cons, mapLookup_cons, ih]

/-- Lookup in a list whose values were rewritten key-by-key. -/
theorem mapLookup_mapVals {β γ : Type} (f : β → γ) (l : List (String × β)) (a : String) :
    mapLookup (l.map (fun p => (p.1, f p.2))) a = (mapLookup l a).map f := by
  induction l with
  | nil => rfl
  | cons p t ih =>
    obtain ⟨k, v⟩ := p
    by_cases h : k = a
    · simp [mapLookup, h]
    · simp [mapLookup, h, ih]

theorem mapLookup_none_of_not_mem {β : Type} (l : List (String × β)) (a : String)
    (h : a ∉ mapKeys l) : mapLookup l a = none := by
  induction l with
  | nil => rfl
  | cons p t ih =>
    obtain ⟨k, v⟩ := p
    simp only [mapKeys, List.map_cons, List.mem_cons] at h
    push_neg at h
    rw [mapLookup_cons, if_neg (fun hh => h.1 hh.symm),
      ih (by simpa [mapKeys] using h.2)]

theorem mapKeys_set {β : Type} (l : List (String × β)) (k : String) (v : β) :
    mapKeys (mapSet l k v) = if k ∈ mapKeys l then mapKeys l else mapKeys l ++ [k] := by
  induction l with
  | nil => simp [mapSet, mapKeys]
  | cons p t ih =>
    obtain ⟨k', v'⟩ := p
    by_cases h : k' = k
    · simp [mapSet, h, mapKeys]
    · have hstep : mapKeys (mapSet ((k', v') :: t) k v) = k' :: mapKeys (mapSet t k v) := by
        simp [mapSet, h, mapKeys]
      rw [hstep, ih]
      have hne : k ≠ k' := fun hh => h hh.symm
      by_cases hm : k ∈ mapKeys t
      · rw [if_pos hm, if_pos (by simp [mapKeys] at hm ⊢; exact Or.inr hm)]
        simp [mapKeys]
      · rw [if_neg hm, if_neg (by simp [mapKeys] at hm ⊢; exact ⟨hne, hm⟩)]
        simp [mapKeys]

theorem mapKeys_set_nodup {β : Type} (l : List (String × β)) (k : String) (v : β)
    (h : (mapKeys l).Nodup) : (mapKeys (mapSet l k v)).Nodup := by
  rw [mapKeys_set]
  by_cases hm : k ∈ mapKeys l
  · simpa [hm] using h
  · rw [if_neg hm]
    refine List.Nodup.append h (List.nodup_singleton k) ?_
    intro a ha hb
    rw [List.mem_singleton] at hb
    exact hm (hb ▸ ha)

theorem mem_mapSet_vals {β : Type} (l : List (String × β)) (k : String) (v : β)
    (p : String × β) (hp : p ∈ mapSet l k v) : p ∈ l ∨ p = (k, v) := by
  induction l with
  | nil => simpa [mapSet] using hp
  | cons q t ih =>
    obtain ⟨k', v'⟩ := q
    by_cases h : k' = k
    · simp only [mapSet, h, if_true, List.mem_cons] at hp
      rcases hp with h1 | h2
      · right; exact h1
      · left; simp [h2]
    · simp only [mapSet, h, if_false, List.mem_cons] at hp
      rcases hp with h1 | h2
      · left; simp [h1]
      · rcases ih h2 with h3 | h4
        · left; simp [h3]
        · right; exact h4

/-! ## Stable descending sort

`Array.prototype.sort(comparator)` is a stable sort (ES2019).  Every code
site sorts by a numeric key in descending order (`(a, b) => key(b) - key(a)`).
Any stable sort computes the same output, so we embed it as a stable
insertion sort: an element is inserted after all strictly greater keys and
before the first element whose key is `≤` its own, which keeps equal-key
elements in input order. -/

/-- Insert `x` into a descending-sorted list, after strictly greater keys. -/
def insertDesc {α : Type} (key : α → ℚ) (x : α) : List α → List α
  | [] => [x]
  | y :: ys => if key x < key y then y :: insertDesc key x ys else x :: y :: ys

/-- Stable sort, descending by `key`. -/
def sortByDesc {α : Type} (key : α → ℚ) : List α → List α
  | [] => []
  | x :: xs => insertDesc key x (sortByDesc key xs)

theorem insertDesc_perm {α : Type} (key : α → ℚ) (x : α) (l : List α) :
    (insertDesc key x l).Perm (x :: l) := by
  induction l with
  | nil => simp [insertDesc]
  | cons y ys ih =>
    by_cases h : key x < key y
    · simp only [insertDesc, h, if_true]
      exact (ih.cons y).trans (List.Perm.swap x y ys)
    · simp [insertDesc, h]

theorem sortByDesc_perm {α : Type} (key : α → ℚ) (l : List α) :
    (sortByDesc key l).Perm l := by
  induction l with
  | nil => simp [sortByDesc]
  | cons x xs ih =>
    exact (insertDesc_perm key x (sortByDesc key xs)).trans (ih.cons x)

theorem sortByDesc_length {α : Type} (key : α → ℚ) (l : List α) :
    (sortByDesc key l).length = l.length :=
  (sortByDesc_perm key l).length_eq

theorem mem_sortByDesc {α : Type} (key : α → ℚ) (l : List α) (a : α) :
    a ∈ sortByDesc key l ↔ a ∈ l :=
  (sortByDesc_perm key l).mem_iff

theorem insertDesc_sorted {α : Type} (key : α → ℚ) (x : α) (l : List α)
    (h : l.Pairwise (fun a b => key b ≤ key a)) :
    (insertDesc key x l).Pairwise (fun a b => key b ≤ key a) := by
  induction l with
  | nil => simp [insertDesc]
  | cons y ys ih =>
    rcases List.pairwise_cons.mp h with ⟨hy, hys⟩
    by_cases hxy : key x < key y
    · simp only [insertDesc, hxy, if_true]
      refine List.pairwise_cons.mpr ⟨?_, ih hys⟩
      intro b hb
      rcases List.mem_cons.mp ((insertDesc_perm key x ys).mem_iff.mp hb) with hb' | hb'
      · exact le_of_lt (hb' ▸ hxy)
      · exact hy b hb'
    · simp only [insertDesc, hxy, if_false]
      refine List.pairwise_cons.mpr ⟨?_, h⟩
      intro b hb
      rcases List.mem_cons.mp hb with hb' | hb'
      · exact hb' ▸ not_lt.mp hxy
      · exact le_trans (hy b hb') (not_lt.mp hxy)

theorem sortByDesc_sorted {α : Type} (key : α → ℚ) (l : List α) :
    (sortByDesc key l).Pairwise (fun a b => key b ≤ key a) := by
  induction l with
  | nil => simp [sortByDesc]
  | cons x xs ih => exact insertDesc_sorted key x _ ih

/-! ## Kernel-computable rational arithmetic

The `Rat` operations of this toolchain (`Rat.add`, `Rat.mul`, `Rat.inv`,
`Rat.sub`, `Rat.ofScientific`) are `@[irreducible]`, so terms built from
them cannot be evaluated by `decide`/`rfl`.  The model therefore uses the
following definitionally transparent twins, each proved equal to the
standard operation; numeric literals of the source (`0.7`, `0.1`, ...) are
written `mkRat n d`.  Proofs may rewrite with the `_eq` lemmas and then work
with ordinary `ℚ` arithmetic. -/

def qadd (a b : ℚ) : ℚ := mkRat (a.num * b.den + b.num * a.den) (a.den * b.den)

def qsub (a b : ℚ) : ℚ := mkRat (a.num * b.den - b.num * a.den) (a.den * b.den)

def qmul (a b : ℚ) : ℚ := mkRat (a.num * b.num) (a.den * b.den)

def qinv (a : ℚ) : ℚ := Rat.divInt a.den a.num

def qdiv (a b : ℚ) : ℚ := qmul a (qinv b)

/-- `Math.min` on exact rationals. -/
def qmin (a b : ℚ) : ℚ := if a ≤ b then a else b

/-- `Math.max` on exact rationals. -/
def qmax (a b : ℚ) : ℚ := if a ≤ b then b else a

theorem qadd_eq (a b : ℚ) : qadd a b = a + b := (Rat.add_def' a b).symm

theorem qsub_eq (a b : ℚ) : qsub a b = a - b := (Rat.sub_def' a b).symm

theorem qmul_eq (a b : ℚ) : qmul a b = a * b := by
  rw [Rat.mul_def, Rat.normalize_eq_mkRat]
  rfl

theorem qinv_eq (a : ℚ) : qinv a = a⁻¹ := (Rat.inv_def a).symm

theorem qdiv_eq (a b : ℚ) : qdiv a b = a / b := by
  rw [qdiv, qmul_eq, qinv_eq, div_eq_mul_inv]

theorem qmin_eq (a b : ℚ) : qmin a b = min a b := by
  rw [qmin, min_def]

theorem qmax_eq (a b : ℚ) : qmax a b = max a b := by
  rw [qmax, max_def]

/-! ## Lexical similarity (`src/utils/similarity.ts`)

`tokenize` lowercases, replaces every character that is neither a word
character (`[A-Za-z0-9_]`) nor whitespace by a space, splits on whitespace
runs and drops empty pieces: the tokens are exactly the maximal runs of
lowercased word characters.  The JS `Set` keeps first-occurrence order and
deduplicates, which we model as `List.dedup`-style first-occurrence lists. -/

/-- `\w` of the source regex (ASCII word character). -/
def isWordChar (c : Char) : Bool :=
  c.isAlphanum || c = '_'

/-- Maximal runs of word characters of a lowercased character list. -/
def tokenRuns : List Char → List Char → List (List Char)
  | [], cur => if cur.isEmpty then [] else [cur]
  | c :: rest, cur =>
    if isWordChar c then tokenRuns rest (cur ++ [c])
    else if cur.isEmpty then tokenRuns rest [] else cur :: tokenRuns rest []

/-- First-occurrence deduplication (JS `Set` insertion semantics). -/
def dedupFirst : List (List Char) → List (List Char) → List (List Char)
  | _, [] => []
  | seen, t :: rest =>
    if t ∈ seen then dedupFirst seen rest else t :: dedupFirst (t :: seen) rest

/-- `tokenize`: the set of lowercased word-character runs, in first-occurrence
order. -/
def tokenize (text : String) : List (List Char) :=
  dedupFirst [] (tokenRuns (text.data.map Char.toLower) [])

/-- `jaccardSimilarity`: `|A ∩ B| / |A ∪ B|` over token sets, with the two
degenerate empty-set cases handled first, as in the source. -/
def jaccardSimilarity (a b : String) : ℚ :=
  let setA := tokenize a
  let setB := tokenize b
  if setA.length = 0 ∧ setB.length = 0 then 1
  else if setA.length = 0 ∨ setB.length = 0 then 0
  else
    let inter := (setA.filter (fun t => t ∈ setB)).length
    let union := setA.length + setB.length - inter
    if union = 0 then 0 else qdiv (inter : ℚ) (union : ℚ)

/-! ## Entry model (`src/memory/types.ts`) -/

inductive MemoryTier : Type
  | fleeting
  | short_term
  | long_term
deriving DecidableEq, Repr

structure MemoryEntry : Type where
  id : String
  content : String
  importance : ℚ
  accessCount : ℕ
  createdAt : ℚ
  lastAccessed : ℚ
  tags : List String
  /-- `associations : Record<string, number>`; set to `{}` at creation and
  never populated by any operation of the core. -/
  associations : List (String × ℚ)
  source : MemoryTier
deriving DecidableEq, Repr

/-- `createMemoryEntry`: clamps importance into `[0, 1]`, zero access count,
both timestamps set to `now`, empty association mirror. -/
def createMemoryEntry (id content : String) (importance : ℚ) (tags : List String)
    (source : MemoryTier) (now : ℚ) : MemoryEntry :=
  { id := id
    content := content
    importance := qmax 0 (qmin 1 importance)
    accessCount := 0
    createdAt := now
    lastAccessed := now
    tags := tags
    associations := []
    source := source }

/-- Milliseconds per day, the divisor of `daysSinceAccess`. -/
def msPerDay : ℚ := 86400000

/-- The square of `calculateRelevance(e, now) = importance *
sqrt(accessCount / (1 + daysSinceAccess))`.  All uses of relevance in the
source are comparisons between relevances or against a nonnegative
threshold, and squaring is strictly monotone on nonnegatives, so comparing
`relevanceSq` values embeds those comparisons exactly (squared thresholds on
the other side). -/
def relevanceSq (e : MemoryEntry) (now : ℚ) : ℚ :=
  qmul (qmul e.importance e.importance)
    (qdiv (e.accessCount : ℚ) (qadd 1 (qdiv (qsub now e.lastAccessed) msPerDay)))

/-- Bump `accessCount`/`lastAccessed`, the side effect of a successful read. -/
def bumpAccess (e : MemoryEntry) (now : ℚ) : MemoryEntry :=
  { e with accessCount := e.accessCount + 1, lastAccessed := now }

/-! ## Associative graph (`src/memory/hebbian.ts`) -/

structure HebbianNetwork : Type where
  /-- `associations[a][b]` = strength of the link from `a` to `b`. -/
  associations : List (String × List (String × ℚ))
  decayRate : ℚ
  maxStrength : ℚ
deriving DecidableEq, Repr

namespace HebbianNetwork

/-- `new HebbianNetwork(decayRate = 0.05, maxStrength = 1.0)`. -/
def mk0 (decayRate : ℚ := mkRat 5 100) (maxStrength : ℚ := 1) : HebbianNetwork :=
  { associations := [], decayRate := decayRate, maxStrength := maxStrength }

/-- `ensureNode`: create an empty adjacency for `id` if absent. -/
def ensureNode (g : HebbianNetwork) (id : String) : HebbianNetwork :=
  if mapHas g.associations id then g
  else { g with associations := mapSet g.associations id [] }

/-- The adjacency of `id` (`associations.get(id)!` after `ensureNode`). -/
def adjOf (g : HebbianNetwork) (id : String) : List (String × ℚ) :=
  (mapLookup g.associations id).getD []

/-- `getStrength`: `associations.get(idA)?.get(idB) || 0`. -/
def getStrength (g : HebbianNetwork) (idA idB : String) : ℚ :=
  ((mapLookup g.associations idA).bind (fun l => mapLookup l idB)).getD 0

/-- `associations.get(a)!.set(b, v)`: rewrite one directed edge in place
(the outer key `a` is present whenever this is reached, after `ensureNode`). -/
def setEdge (assoc : List (String × List (String × ℚ))) (a b : String) (v : ℚ) :
    List (String × List (String × ℚ)) :=
  mapSet assoc a (mapSet ((mapLookup assoc a).getD []) b v)

/-- `strengthen(idA, idB, amount = 0.1)`: both directions are read first,
then each direction is written, independently clamped to `maxStrength`. -/
def strengthen (g : HebbianNetwork) (idA idB : String) (amount : ℚ := mkRat 1 10) :
    HebbianNetwork :=
  let g2 := ensureNode (ensureNode g idA) idB
  let currentAB := (mapLookup (adjOf g2 idA) idB).getD 0
  let currentBA := (mapLookup (adjOf g2 idB) idA).getD 0
  let a2 := setEdge
    (setEdge g2.associations idA idB (qmin g2.maxStrength (qadd currentAB amount)))
    idB idA (qmin g2.maxStrength (qadd currentBA amount))
  { g2 with associations := a2 }

/-- `getAssociations(id)` (a copy of the adjacency). -/
def getAssociations (g : HebbianNetwork) (id : String) : List (String × ℚ) :=
  adjOf g id

/-- `getStrongestAssociations(id, limit = 5)`: neighbors sorted by weight
descending (stable), truncated. -/
def getStrongestAssociations (g : HebbianNetwork) (id : String) (limit : ℕ := 5) :
    List (String × ℚ) :=
  match mapLookup g.associations id with
  | none => []
  | some assocs => (sortByDesc (fun p => p.2) assocs).take limit

/-- One edge under `decay()`: the weight scaled by `1 - decayRate`, deleted
when the new weight falls below `0.01`. -/
def decayEdge (decayRate w : ℚ) : Option ℚ :=
  if qmul w (qsub 1 decayRate) < mkRat 1 100 then none
  else some (qmul w (qsub 1 decayRate))

/-- `decay()`: every edge weight is multiplied by `1 - decayRate`; an edge
whose new weight falls below `0.01` is deleted.  (The loop deletes only the
entry it is visiting, so iterating while mutating visits every edge once.) -/
def decay (g : HebbianNetwork) : HebbianNetwork :=
  { g with associations := g.associations.map (fun p =>
      (p.1, p.2.filterMap (fun q => (decayEdge g.decayRate q.2).map (fun w => (q.1, w))))) }

/-- Strengthen `x` against each id of a list, in order (the inner loop of
`coActivate`). -/
def strengthenAll (g : HebbianNetwork) (x : String) : List String → HebbianNetwork
  | [] => g
  | y :: ys => strengthenAll (strengthen g x y) x ys

/-- `coActivate(ids)`: strengthen every unordered pair `(ids[i], ids[j])`,
`i < j`, by the default amount. -/
def coActivate (g : HebbianNetwork) : List String → HebbianNetwork
  | [] => g
  | x :: rest => coActivate (strengthenAll g x rest) rest

/-- `removeNode(id)`: drop the node's adjacency and strip `id` from every
remaining adjacency. -/
def removeNode (g : HebbianNetwork) (id : String) : HebbianNetwork :=
  { g with associations :=
      (mapErase g.associations id).map (fun p => (p.1, mapErase p.2 id)) }

/-- `size()`: number of nodes. -/
def size (g : HebbianNetwork) : ℕ :=
  g.associations.length

/-- The persisted shape `Record<string, Record<string, number>>`. -/
abbrev GraphDoc := List (String × List (String × ℚ))

/-- `toJSON()`: the nested mapping, node by node.  (For integer-like keys a
JS object reorders properties ahead of the others; this permutes entries but
changes no lookup, and no claim depends on document ordering.) -/
def toJSON (g : HebbianNetwork) : GraphDoc :=
  g.associations

/-- `HebbianNetwork.fromJSON(data, decayRate?, maxStrength?)`. -/
def fromJSON (data : GraphDoc) (decayRate maxStrength : Option ℚ := none) :
    HebbianNetwork :=
  { associations := data
    decayRate := decayRate.getD (mkRat 5 100)
    maxStrength := maxStrength.getD 1 }

end HebbianNetwork

namespace HebbianNetwork

@[simp] theorem decayRate_ensureNode (g : HebbianNetwork) (id : String) :
    (ensureNode g id).decayRate = g.decayRate := by
  unfold ensureNode; split <;> rfl

@[simp] theorem maxStrength_ensureNode (g : HebbianNetwork) (id : String) :
    (ensureNode g id).maxStrength = g.maxStrength := by
  unfold ensureNode; split <;> rfl

@[simp] theorem decayRate_strengthen (g : HebbianNetwork) (a b : String) (amt : ℚ) :
    (strengthen g a b amt).decayRate = g.decayRate := by
  simp [strengthen]

@[simp] theorem maxStrength_strengthen (g : HebbianNetwork) (a b : String) (amt : ℚ) :
    (strengthen g a b amt).maxStrength = g.maxStrength := by
  simp [strengthen]

@[simp] theorem decayRate_removeNode (g : HebbianNetwork) (id : String) :
    (removeNode g id).decayRate = g.decayRate := rfl

@[simp] theorem maxStrength_removeNode (g : HebbianNetwork) (id : String) :
    (removeNode g id).maxStrength = g.maxStrength := rfl

@[simp] theorem decayRate_decay (g : HebbianNetwork) :
    (decay g).decayRate = g.decayRate := rfl

@[simp] theorem maxStrength_decay (g : HebbianNetwork) :
    (decay g).maxStrength = g.maxStrength := rfl

/-- The directed edge value (`associations.get(x)?.get(y)`). -/
def edgeVal (assoc : List (String × List (String × ℚ))) (x y : String) : Option ℚ :=
  (mapLookup assoc x).bind (fun l => mapLookup l y)

theorem getStrength_eq_edgeVal (g : HebbianNetwork) (x y : String) :
    getStrength g x y = (edgeVal g.associations x y).getD 0 := rfl

theorem mapLookup_getD_nil {β : Type} (o : Option (List (String × β))) (b : String) :
    mapLookup (o.getD []) b = o.bind (fun l => mapLookup l b) := by
  cases o <;> rfl

theorem edgeVal_setEdge (assoc : List (String × List (String × ℚ)))
    (a b : String) (v : ℚ) (x y : String) :
    edgeVal (setEdge assoc a b v) x y =
      if x = a ∧ y = b then some v else edgeVal assoc x y := by
  unfold edgeVal setEdge
  by_cases hx : x = a
  · subst hx
    rw [mapLookup_set_self, Option.some_bind]
    by_cases hy : y = b
    · subst hy
      rw [mapLookup_set_self, if_pos ⟨rfl, rfl⟩]
    · rw [mapLookup_set_ne _ _ _ _ (fun hh => hy hh.symm),
        if_neg (fun hc => hy hc.2), mapLookup_getD_nil]
  · rw [mapLookup_set_ne _ _ _ _ (fun hh => hx hh.symm),
      if_neg (fun hc => hx hc.1)]

theorem edgeVal_ensureNode (g : HebbianNetwork) (id x y : String) :
    edgeVal (ensureNode g id).associations x y = edgeVal g.associations x y := by
  unfold ensureNode
  by_cases h : mapHas g.associations id
  · rw [if_pos h]
  · rw [if_neg h]
    unfold edgeVal
    by_cases hx : x = id
    · subst hx
      rw [mapLookup_set_self, Option.some_bind]
      have hnone : mapLookup g.associations x = none := by
        unfold mapHas at h
        cases hl : mapLookup g.associations x with
        | none => rfl
        | some v => rw [hl] at h; simp at h
      rw [hnone]
      rfl
    · rw [mapLookup_set_ne _ _ _ _ (fun hh => hx hh.symm)]

theorem getStrength_ensureNode (g : HebbianNetwork) (id x y : String) :
    getStrength (ensureNode g id) x y = getStrength g x y := by
  rw [getStrength_eq_edgeVal, getStrength_eq_edgeVal, edgeVal_ensureNode]

theorem adjOf_lookup_eq_getStrength (g : HebbianNetwork) (u v : String) :
    (mapLookup (adjOf g u) v).getD 0 = getStrength g u v := by
  unfold adjOf
  rw [mapLookup_getD_nil]
  rfl

/-- Pointwise characterization of `strengthen`: only the two directions of
the strengthened pair change, each clamped independently. -/
theorem getStrength_strengthen (g : HebbianNetwork) (a b : String) (amt : ℚ)
    (x y : String) :
    getStrength (strengthen g a b amt) x y =
      if x = b ∧ y = a then qmin g.maxStrength (qadd (getStrength g b a) amt)
      else if x = a ∧ y = b then qmin g.maxStrength (qadd (getStrength g a b) amt)
      else getStrength g x y := by
  have hmax : (ensureNode (ensureNode g a) b).maxStrength = g.maxStrength := by simp
  have hAB : (mapLookup (adjOf (ensureNode (ensureNode g a) b) a) b).getD 0 =
      getStrength g a b := by
    rw [adjOf_lookup_eq_getStrength, getStrength_ensureNode, getStrength_ensureNode]
  have hBA : (mapLookup (adjOf (ensureNode (ensureNode g a) b) b) a).getD 0 =
      getStrength g b a := by
    rw [adjOf_lookup_eq_getStrength, getStrength_ensureNode, getStrength_ensureNode]
  unfold strengthen
  simp only [hmax, hAB, hBA]
  rw [getStrength_eq_edgeVal]
  show (edgeVal (setEdge (setEdge (ensureNode (ensureNode g a) b).associations a b
      (qmin g.maxStrength (qadd (getStrength g a b) amt))) b a
      (qmin g.maxStrength (qadd (getStrength g b a) amt))) x y).getD 0 = _
  rw [edgeVal_setEdge, edgeVal_setEdge]
  by_cases hba : x = b ∧ y = a
  · rw [if_pos hba, if_pos hba]
    rfl
  · rw [if_neg hba, if_neg hba]
    by_cases hab : x = a ∧ y = b
    · rw [if_pos hab, if_pos hab]
      rfl
    · rw [if_neg hab, if_neg hab, ← getStrength_eq_edgeVal, getStrength_ensureNode,
        getStrength_ensureNode]

/-- Well-formedness of the `Map`-of-`Map`s representation: key lists have no
duplicates, as JS `Map`s guarantee. -/
def WF (g : HebbianNetwork) : Prop :=
  (mapKeys g.associations).Nodup ∧ ∀ p ∈ g.associations, (mapKeys p.2).Nodup

theorem mapLookup_mem {β : Type} (l : List (String × β)) (a : String) (v : β)
    (h : mapLookup l a = some v) : (a, v) ∈ l := by
  induction l with
  | nil => simp [mapLookup] at h
  | cons p t ih =>
    obtain ⟨k, w⟩ := p
    by_cases hk : k = a
    · subst hk
      rw [mapLookup_cons, if_pos rfl] at h
      injection h with h2
      subst h2
      exact List.mem_cons_self _ _
    · rw [mapLookup_cons, if_neg hk] at h
      exact List.mem_cons_of_mem _ (ih h)

theorem WF_adjOf (g : HebbianNetwork) (hWF : WF g) (id : String) :
    (mapKeys (adjOf g id)).Nodup := by
  unfold adjOf
  cases hl : mapLookup g.associations id with
  | none => simp [mapKeys]
  | some l => exact hWF.2 (id, l) (mapLookup_mem _ _ _ hl)

theorem WF_ensureNode (g : HebbianNetwork) (hWF : WF g) (id : String) :
    WF (ensureNode g id) := by
  unfold ensureNode
  by_cases h : mapHas g.associations id
  · rw [if_pos h]; exact hWF
  · rw [if_neg h]
    refine ⟨mapKeys_set_nodup _ _ _ hWF.1, ?_⟩
    intro p hp
    rcases mem_mapSet_vals _ _ _ _ hp with hmem | heq
    · exact hWF.2 p hmem
    · subst heq; simp [mapKeys]

theorem WF_setEdge (assoc : List (String × List (String × ℚ)))
    (h1 : (mapKeys assoc).Nodup) (h2 : ∀ p ∈ assoc, (mapKeys p.2).Nodup)
    (a b : String) (v : ℚ) :
    (mapKeys (setEdge assoc a b v)).Nodup ∧
      ∀ p ∈ setEdge assoc a b v, (mapKeys p.2).Nodup := by
  unfold setEdge
  refine ⟨mapKeys_set_nodup _ _ _ h1, ?_⟩
  intro p hp
  rcases mem_mapSet_vals _ _ _ _ hp with hmem | heq
  · exact h2 p hmem
  · subst heq
    refine mapKeys_set_nodup _ _ _ ?_
    cases hl : mapLookup assoc a with
    | none => simp [mapKeys]
    | some l => exact h2 (a, l) (mapLookup_mem _ _ _ hl)

theorem WF_strengthen (g : HebbianNetwork) (hWF : WF g) (a b : String) (amt : ℚ) :
    WF (strengthen g a b amt) := by
  have h2 := WF_ensureNode _ (WF_ensureNode g hWF a) b
  unfold strengthen
  have hs1 := WF_setEdge _ h2.1 h2.2 a b
    (qmin (ensureNode (ensureNode g a) b).maxStrength
      (qadd ((mapLookup (adjOf (ensureNode (ensureNode g a) b) a) b).getD 0) amt))
  have hs2 := WF_setEdge _ (hs1.1) (hs1.2) b a
    (qmin (ensureNode (ensureNode g a) b).maxStrength
      (qadd ((mapLookup (adjOf (ensureNode (ensureNode g a) b) b) a).getD 0) amt))
  exact ⟨hs2.1, hs2.2⟩

/-- Keys of a value-rewriting `filterMap` form a sublist of the input keys. -/
theorem mapKeys_filterMap_sublist {β γ : Type} (h : β → Option γ)
    (l : List (String × β)) :
    (mapKeys (l.filterMap (fun p => (h p.2).map (fun w => (p.1, w))))).Sublist
      (mapKeys l) := by
  induction l with
  | nil => simp [mapKeys]
  | cons p t ih =>
    obtain ⟨k, v⟩ := p
    cases hv : h v with
    | none => simpa [mapKeys, List.filterMap_cons, hv] using ih.cons k
    | some w => simpa [mapKeys, List.filterMap_cons, hv] using ih.cons₂ k

/-- Lookup commutes with a value-rewriting `filterMap` on a dup-free list. -/
theorem mapLookup_filterMap {β γ : Type} (h : β → Option γ)
    (l : List (String × β)) (hnd : (mapKeys l).Nodup) (a : String) :
    mapLookup (l.filterMap (fun p => (h p.2).map (fun w => (p.1, w)))) a =
      (mapLookup l a).bind h := by
  induction l with
  | nil => rfl
  | cons p t ih =>
    obtain ⟨k, v⟩ := p
    have hnd' : (mapKeys t).Nodup := (List.nodup_cons.mp (by simpa [mapKeys] using hnd)).2
    have hknot : k ∉ mapKeys t := (List.nodup_cons.mp (by simpa [mapKeys] using hnd)).1
    by_cases hk : k = a
    · subst hk
      cases hv : h v with
      | none =>
        simp only [List.filterMap_cons, hv, Option.map_none']
        rw [mapLookup_none_of_not_mem _ _
          (fun hmem => hknot ((mapKeys_filterMap_sublist h t).subset hmem)),
          mapLookup_cons, if_pos rfl, Option.some_bind, hv]
      | some w =>
        simp only [List.filterMap_cons, hv, Option.map_some']
        rw [mapLookup_cons, if_pos rfl, mapLookup_cons, if_pos rfl, Option.some_bind, hv]
    · cases hv : h v with
      | none =>
        simp only [List.filterMap_cons, hv, Option.map_none']
        rw [ih hnd', mapLookup_cons, if_neg hk]
      | some w =>
        simp only [List.filterMap_cons, hv, Option.map_some']
        rw [mapLookup_cons, if_neg hk, mapLookup_cons, if_neg hk, ih hnd']

theorem WF_decay (g : HebbianNetwork) (hWF : WF g) : WF (decay g) := by
  unfold decay
  constructor
  · have : mapKeys (g.associations.map (fun p => (p.1,
        p.2.filterMap (fun q => (decayEdge g.decayRate q.2).map (fun w => (q.1, w)))))) =
        mapKeys g.associations := by
      simp [mapKeys]
    rw [this]
    exact hWF.1
  · intro p hp
    rcases List.mem_map.mp hp with ⟨q, hq, hpq⟩
    subst hpq
    exact ((mapKeys_filterMap_sublist _ _).nodup (hWF.2 q hq))

/-- Pointwise characterization of `decay`. -/
theorem getStrength_decay (g : HebbianNetwork) (hWF : WF g) (x y : String) :
    getStrength (decay g) x y =
      if qmul (getStrength g x y) (qsub 1 g.decayRate) < mkRat 1 100 then 0
      else qmul (getStrength g x y) (qsub 1 g.decayRate) := by
  have hassoc : (decay g).associations = g.associations.map (fun p => (p.1,
      (fun l => l.filterMap
        (fun q => (decayEdge g.decayRate q.2).map (fun w => (q.1, w)))) p.2)) := rfl
  rw [getStrength_eq_edgeVal, getStrength_eq_edgeVal]
  unfold edgeVal
  rw [hassoc, mapLookup_mapVals]
  cases hl : mapLookup g.associations x with
  | none =>
    simp only [Option.map_none', Option.none_bind, Option.getD_none]
    rw [if_pos (by rw [qmul_eq]; norm_num)]
  | some inner =>
    simp only [Option.map_some', Option.some_bind]
    rw [mapLookup_filterMap _ _ (hWF.2 (x, inner) (mapLookup_mem _ _ _ hl)) y]
    cases hi : mapLookup inner y with
    | none =>
      simp only [Option.none_bind, Option.getD_none]
      rw [if_pos (by rw [qmul_eq]; norm_num)]
    | some w =>
      simp only [Option.some_bind]
      unfold decayEdge
      by_cases hw : qmul w (qsub 1 g.decayRate) < mkRat 1 100
      · rw [if_pos hw, Option.getD_some, if_pos hw]
        rfl
      · rw [if_neg hw, Option.getD_some, Option.getD_some, if_neg hw]

/-- Pointwise characterization of `removeNode`. -/
theorem getStrength_removeNode (g : HebbianNetwork) (id x y : String) :
    getStrength (removeNode g id) x y =
      if x = id ∨ y = id then 0 else getStrength g x y := by
  have hassoc : (removeNode g id).associations =
      (mapErase g.associations id).map (fun p => (p.1, (fun l => mapErase l id) p.2)) := rfl
  rw [getStrength_eq_edgeVal, getStrength_eq_edgeVal]
  unfold edgeVal
  rw [hassoc, mapLookup_mapVals (fun l => mapErase l id) (mapErase g.associations id) x]
  by_cases hx : x = id
  · subst hx
    rw [mapLookup_erase_self]
    simp
  · rw [mapLookup_erase_ne _ _ _ hx]
    cases hl : mapLookup g.associations x with
    | none =>
      simp only [hl, Option.map_none', Option.none_bind, Option.getD_none]
      rw [eq_comm, ite_eq_iff]
      by_cases hc : x = id ∨ y = id
      · left; exact ⟨hc, rfl⟩
      · right; exact ⟨hc, by simp [hl]⟩
    | some inner =>
      simp only [hl, Option.map_some', Option.some_bind]
      by_cases hy : y = id
      · subst hy
        rw [mapLookup_erase_self, if_pos (Or.inr rfl)]
        rfl
      · rw [mapLookup_erase_ne _ _ _ hy, if_neg (fun hc => hc.elim hx hy)]

/-- Edge symmetry: the spec's graph invariant. -/
def Symm (g : HebbianNetwork) : Prop :=
  ∀ x y, getStrength g x y = getStrength g y x

theorem Symm_strengthen (g : HebbianNetwork) (hS : Symm g) (a b : String) (amt : ℚ) :
    Symm (strengthen g a b amt) := by
  intro x y
  rw [getStrength_strengthen, getStrength_strengthen]
  by_cases h1 : x = b ∧ y = a
  · rw [if_pos h1]
    by_cases h2 : y = b ∧ x = a
    · rw [if_pos h2, hS b a]
    · rw [if_neg h2, if_pos ⟨h1.2, h1.1⟩, hS b a]
  · rw [if_neg h1]
    by_cases h2 : x = a ∧ y = b
    · rw [if_pos h2, if_pos ⟨h2.2, h2.1⟩, hS b a]
    · rw [if_neg h2, if_neg (fun hc => h2 ⟨hc.2, hc.1⟩), if_neg (fun hc => h1 ⟨hc.2, hc.1⟩),
        hS x y]

theorem Symm_decay (g : HebbianNetwork) (hWF : WF g) (hS : Symm g) : Symm (decay g) := by
  intro x y
  rw [getStrength_decay g hWF, getStrength_decay g hWF, hS x y]

theorem Symm_removeNode (g : HebbianNetwork) (hS : Symm g) (id : String) :
    Symm (removeNode g id) := by
  intro x y
  rw [getStrength_removeNode, getStrength_removeNode, hS x y]
  by_cases h : x = id ∨ y = id
  · rw [if_pos h, if_pos (h.symm)]
  · rw [if_neg h, if_neg (fun hc => h hc.symm)]

theorem WF_strengthenAll (g : HebbianNetwork) (hWF : WF g) (x : String)
    (l : List String) : WF (strengthenAll g x l) := by
  induction l generalizing g with
  | nil => exact hWF
  | cons y ys ih => exact ih _ (WF_strengthen g hWF x y (mkRat 1 10))

theorem Symm_strengthenAll (g : HebbianNetwork) (hS : Symm g) (x : String)
    (l : List String) : Symm (strengthenAll g x l) := by
  induction l generalizing g with
  | nil => exact hS
  | cons y ys ih => exact ih _ (Symm_strengthen g hS x y (mkRat 1 10))

theorem WF_coActivate (g : HebbianNetwork) (hWF : WF g) (l : List String) :
    WF (coActivate g l) := by
  induction l generalizing g with
  | nil => exact hWF
  | cons x rest ih => exact ih _ (WF_strengthenAll g hWF x rest)

theorem Symm_coActivate (g : HebbianNetwork) (hS : Symm g) (l : List String) :
    Symm (coActivate g l) := by
  induction l generalizing g with
  | nil => exact hS
  | cons x rest ih => exact ih _ (Symm_strengthenAll g hS x rest)

theorem WF_removeNode (g : HebbianNetwork) (hWF : WF g) (id : String) :
    WF (removeNode g id) := by
  have hassoc : (removeNode g id).associations =
      (mapErase g.associations id).map (fun p => (p.1, mapErase p.2 id)) := rfl
  constructor
  · have heq : mapKeys ((mapErase g.associations id).map
        (fun p => (p.1, mapErase p.2 id))) = mapKeys (mapErase g.associations id) := by
      simp [mapKeys]
    rw [hassoc, heq]
    exact ((List.filter_sublist _).map Prod.fst).nodup hWF.1
  · intro p hp
    rw [hassoc] at hp
    rcases List.mem_map.mp hp with ⟨q, hq, hpq⟩
    subst hpq
    exact ((List.filter_sublist _).map Prod.fst).nodup
      (hWF.2 q (List.mem_of_mem_filter hq))

theorem WF_mk0 (dr ms : ℚ) : WF (mk0 dr ms) :=
  ⟨List.nodup_nil, fun p hp => absurd hp (List.not_mem_nil p)⟩

theorem Symm_mk0 (dr ms : ℚ) : Symm (mk0 dr ms) := fun _ _ => rfl

end HebbianNetwork

/-- The graph mutations named by the symmetry claim. -/
inductive GraphOp : Type
  | strengthenOp (a b : String) (amount : ℚ)
  | coActivateOp (ids : List String)
  | decayOp
  | removeNodeOp (id : String)

/-- Run one mutation. -/
def applyOp (g : HebbianNetwork) : GraphOp → HebbianNetwork
  | GraphOp.strengthenOp a b amount => g.strengthen a b amount
  | GraphOp.coActivateOp ids => g.coActivate ids
  | GraphOp.decayOp => g.decay
  | GraphOp.removeNodeOp id => g.removeNode id

/-- Run a sequence of mutations, first to last. -/
def applyOps (g : HebbianNetwork) (ops : List GraphOp) : HebbianNetwork :=
  ops.foldl applyOp g

theorem WF_Symm_applyOp (g : HebbianNetwork) (h : g.WF ∧ g.Symm) (op : GraphOp) :
    (applyOp g op).WF ∧ (applyOp g op).Symm := by
  cases op with
  | strengthenOp a b amount =>
    exact ⟨HebbianNetwork.WF_strengthen g h.1 a b amount,
      HebbianNetwork.Symm_strengthen g h.2 a b amount⟩
  | coActivateOp ids =>
    exact ⟨HebbianNetwork.WF_coActivate g h.1 ids,
      HebbianNetwork.Symm_coActivate g h.2 ids⟩
  | decayOp =>
    exact ⟨HebbianNetwork.WF_decay g h.1, HebbianNetwork.Symm_decay g h.1 h.2⟩
  | removeNodeOp id =>
    exact ⟨HebbianNetwork.WF_removeNode g h.1 id,
      HebbianNetwork.Symm_removeNode g h.2 id⟩

theorem WF_Symm_applyOps (g : HebbianNetwork) (h : g.WF ∧ g.Symm)
    (ops : List GraphOp) : (applyOps g ops).WF ∧ (applyOps g ops).Symm := by
  induction ops generalizing g with
  | nil => exact h
  | cons op rest ih => exact ih _ (WF_Symm_applyOp g h op)

namespace HebbianNetwork

theorem mem_keys_mapSet_self {β : Type} (l : List (String × β)) (k : String) (v : β) :
    k ∈ mapKeys (mapSet l k v) := by
  rw [mapKeys_set]
  by_cases hm : k ∈ mapKeys l
  · rw [if_pos hm]; exact hm
  · rw [if_neg hm]; exact List.mem_append_right _ (List.mem_singleton_self k)

theorem mem_keys_mapSet_mono {β : Type} (l : List (String × β)) (k : String) (v : β)
    (x : String) (h : x ∈ mapKeys l) : x ∈ mapKeys (mapSet l k v) := by
  rw [mapKeys_set]
  by_cases hm : k ∈ mapKeys l
  · rw [if_pos hm]; exact h
  · rw [if_neg hm]; exact List.mem_append_left _ h

theorem mem_keys_of_lookup {β : Type} (l : List (String × β)) (k : String) (v : β)
    (h : mapLookup l k = some v) : k ∈ mapKeys l :=
  List.mem_map.mpr ⟨(k, v), mapLookup_mem l k v h, rfl⟩

theorem keys_ensureNode_mono (g : HebbianNetwork) (id x : String)
    (h : x ∈ mapKeys g.associations) : x ∈ mapKeys (ensureNode g id).associations := by
  unfold ensureNode
  by_cases hh : mapHas g.associations id
  · rw [if_pos hh]; exact h
  · rw [if_neg hh]; exact mem_keys_mapSet_mono _ _ _ _ h

theorem mem_keys_ensureNode_self (g : HebbianNetwork) (id : String) :
    id ∈ mapKeys (ensureNode g id).associations := by
  unfold ensureNode
  by_cases hh : mapHas g.associations id
  · rw [if_pos hh]
    unfold mapHas at hh
    cases hl : mapLookup g.associations id with
    | none => rw [hl] at hh; simp at hh
    | some v => exact mem_keys_of_lookup _ _ _ hl
  · rw [if_neg hh]; exact mem_keys_mapSet_self _ _ _

theorem keys_strengthen_mono (g : HebbianNetwork) (a b : String) (amt : ℚ)
    (x : String) (h : x ∈ mapKeys g.associations) :
    x ∈ mapKeys (strengthen g a b amt).associations := by
  unfold strengthen setEdge
  dsimp only
  exact mem_keys_mapSet_mono _ _ _ _ (mem_keys_mapSet_mono _ _ _ _
    (keys_ensureNode_mono _ b x (keys_ensureNode_mono _ a x h)))

theorem mem_keys_strengthen_left (g : HebbianNetwork) (a b : String) (amt : ℚ) :
    a ∈ mapKeys (strengthen g a b amt).associations := by
  unfold strengthen setEdge
  dsimp only
  exact mem_keys_mapSet_mono _ _ _ _ (mem_keys_mapSet_mono _ _ _ _
    (keys_ensureNode_mono _ b a (mem_keys_ensureNode_self g a)))

theorem mem_keys_strengthen_right (g : HebbianNetwork) (a b : String) (amt : ℚ) :
    b ∈ mapKeys (strengthen g a b amt).associations := by
  unfold strengthen setEdge
  dsimp only
  exact mem_keys_mapSet_mono _ _ _ _ (mem_keys_mapSet_mono _ _ _ _
    (mem_keys_ensureNode_self _ b))

theorem keys_strengthenAll_mono (g : HebbianNetwork) (x : String) (ys : List String)
    (k : String) (h : k ∈ mapKeys g.associations) :
    k ∈ mapKeys (strengthenAll g x ys).associations := by
  induction ys generalizing g with
  | nil => exact h
  | cons y t ih => exact ih _ (keys_strengthen_mono g x y _ k h)

theorem mem_keys_strengthenAll (g : HebbianNetwork) (x : String) (ys : List String)
    (hys : ys ≠ []) :
    x ∈ mapKeys (strengthenAll g x ys).associations ∧
      ∀ y ∈ ys, y ∈ mapKeys (strengthenAll g x ys).associations := by
  induction ys generalizing g with
  | nil => exact absurd rfl hys
  | cons y t ih =>
    by_cases ht : t = []
    · subst ht
      refine ⟨keys_strengthenAll_mono _ x [] x (mem_keys_strengthen_left g x y _), ?_⟩
      intro z hz
      rw [List.mem_singleton.mp hz]
      exact keys_strengthenAll_mono _ x [] y (mem_keys_strengthen_right g x y _)
    · have ihh := ih (strengthen g x y (mkRat 1 10)) ht
      refine ⟨ihh.1, ?_⟩
      intro z hz
      rcases List.mem_cons.mp hz with hzy | hzt
      · subst hzy
        exact keys_strengthenAll_mono _ x t z (mem_keys_strengthen_right g x z _)
      · exact ihh.2 z hzt

theorem keys_coActivate_mono (g : HebbianNetwork) (l : List String) (k : String)
    (h : k ∈ mapKeys g.associations) :
    k ∈ mapKeys (coActivate g l).associations := by
  induction l generalizing g with
  | nil => exact h
  | cons x rest ih => exact ih _ (keys_strengthenAll_mono g x rest k h)

theorem mem_keys_coActivate (g : HebbianNetwork) (l : List String)
    (hlen : 2 ≤ l.length) (p : String) (hp : p ∈ l) :
    p ∈ mapKeys (coActivate g l).associations := by
  cases l with
  | nil => simp at hlen
  | cons x rest =>
    have hrest : rest ≠ [] := by
      intro hc
      rw [hc] at hlen
      simp at hlen
    have hA := mem_keys_strengthenAll g x rest hrest
    rcases List.mem_cons.mp hp with hpx | hpr
    · subst hpx
      exact keys_coActivate_mono _ rest p hA.1
    · exact keys_coActivate_mono _ rest p (hA.2 p hpr)

@[simp] theorem maxStrength_strengthenAll (g : HebbianNetwork) (x : String)
    (ys : List String) : (strengthenAll g x ys).maxStrength = g.maxStrength := by
  induction ys generalizing g with
  | nil => rfl
  | cons y t ih => rw [strengthenAll, ih, maxStrength_strengthen]

@[simp] theorem maxStrength_coActivate (g : HebbianNetwork) (l : List String) :
    (coActivate g l).maxStrength = g.maxStrength := by
  induction l generalizing g with
  | nil => rfl
  | cons x rest ih => rw [coActivate, ih, maxStrength_strengthenAll]

/-- The inner `coActivate` loop leaves every pair not of the form
`(x, y)`/`(y, x)`, `y ∈ ys`, untouched. -/
theorem getStrength_strengthenAll_untouched (g : HebbianNetwork) (x : String)
    (ys : List String) (u v : String)
    (hno : ¬((u = x ∧ v ∈ ys) ∨ (v = x ∧ u ∈ ys))) :
    (strengthenAll g x ys).getStrength u v = g.getStrength u v := by
  induction ys generalizing g with
  | nil => rfl
  | cons y t ih =>
    push_neg at hno
    rw [strengthenAll, ih _ (by
      push_neg
      constructor
      · intro hux
        exact fun hvt => (hno.1 hux) (List.mem_cons_of_mem y hvt)
      · intro hvx
        exact fun hut => (hno.2 hvx) (List.mem_cons_of_mem y hut)),
      getStrength_strengthen]
    rw [if_neg (fun hc : u = y ∧ v = x => (hno.2 hc.2) (hc.1 ▸ List.mem_cons_self y t)),
      if_neg (fun hc : u = x ∧ v = y => (hno.1 hc.1) (hc.2 ▸ List.mem_cons_self y t))]

/-- A pair with one endpoint outside the list is untouched by `coActivate`. -/
theorem getStrength_coActivate_untouched (g : HebbianNetwork) (l : List String)
    (u v : String) (hno : u ∉ l ∨ v ∉ l) :
    (coActivate g l).getStrength u v = g.getStrength u v := by
  induction l generalizing g with
  | nil => rfl
  | cons x rest ih =>
    have hno2 : u ∉ rest ∨ v ∉ rest := by
      rcases hno with hu | hv
      · exact Or.inl (fun hc => hu (List.mem_cons_of_mem x hc))
      · exact Or.inr (fun hc => hv (List.mem_cons_of_mem x hc))
    rw [coActivate, ih _ hno2, getStrength_strengthenAll_untouched]
    rcases hno with hu | hv
    · intro hc
      rcases hc with ⟨hux, _⟩ | ⟨_, hur⟩
      · exact hu (hux ▸ List.mem_cons_self x rest)
      · exact hu (List.mem_cons_of_mem x hur)
    · intro hc
      rcases hc with ⟨_, hvr⟩ | ⟨hvx, _⟩
      · exact hv (List.mem_cons_of_mem x hvr)
      · exact hv (hvx ▸ List.mem_cons_self x rest)

/-- The inner loop strengthens `(x, v)` exactly once for each `v` of a
dup-free list not containing `x`. -/
theorem getStrength_strengthenAll_hit (g : HebbianNetwork) (x : String)
    (ys : List String) (hx : x ∉ ys) (hnd : ys.Nodup) (v : String) (hv : v ∈ ys) :
    (strengthenAll g x ys).getStrength x v =
      qmin g.maxStrength (qadd (g.getStrength x v) (mkRat 1 10)) := by
  induction ys generalizing g with
  | nil => exact absurd hv (List.not_mem_nil v)
  | cons y t ih =>
    rw [List.nodup_cons] at hnd
    have hxy : x ≠ y := fun hc => hx (hc ▸ List.mem_cons_self y t)
    have hxt : x ∉ t := fun hc => hx (List.mem_cons_of_mem y hc)
    rcases List.mem_cons.mp hv with hvy | hvt
    · subst hvy
      rw [strengthenAll,
        getStrength_strengthenAll_untouched _ x t x v
          (by
            push_neg
            exact ⟨fun _ => hnd.1, fun hc => absurd hc.symm hxy⟩),
        getStrength_strengthen]
      rw [if_neg (fun hc => hxy hc.1), if_pos ⟨rfl, rfl⟩]
    · have hvy : v ≠ y := fun hc => hnd.1 (hc ▸ hvt)
      rw [strengthenAll, ih _ hxt hnd.2 hvt, getStrength_strengthen]
      rw [if_neg (fun hc : x = y ∧ v = x => hxy hc.1),
        if_neg (fun hc : x = x ∧ v = y => hvy hc.2), maxStrength_strengthen]

/-- Symmetric version: the `(v, x)` direction. -/
theorem getStrength_strengthenAll_hit_rev (g : HebbianNetwork) (x : String)
    (ys : List String) (hx : x ∉ ys) (hnd : ys.Nodup) (v : String) (hv : v ∈ ys) :
    (strengthenAll g x ys).getStrength v x =
      qmin g.maxStrength (qadd (g.getStrength v x) (mkRat 1 10)) := by
  induction ys generalizing g with
  | nil => exact absurd hv (List.not_mem_nil v)
  | cons y t ih =>
    rw [List.nodup_cons] at hnd
    have hxy : x ≠ y := fun hc => hx (hc ▸ List.mem_cons_self y t)
    have hxt : x ∉ t := fun hc => hx (List.mem_cons_of_mem y hc)
    rcases List.mem_cons.mp hv with hvy | hvt
    · subst hvy
      rw [strengthenAll,
        getStrength_strengthenAll_untouched _ x t v x
          (by
            push_neg
            exact ⟨fun hc => absurd hc.symm hxy, fun _ => hnd.1⟩),
        getStrength_strengthen]
      rw [if_pos ⟨rfl, rfl⟩]
    · have hvy : v ≠ y := fun hc => hnd.1 (hc ▸ hvt)
      rw [strengthenAll, ih _ hxt hnd.2 hvt, getStrength_strengthen]
      rw [if_neg (fun hc : v = y ∧ x = x => hvy hc.1),
        if_neg (fun hc : v = x ∧ x = y => hxy hc.2), maxStrength_strengthen]

/-- `coActivate(ids)` on a dup-free list strengthens each unordered pair of
distinct members exactly once by the default amount. -/
theorem getStrength_coActivate_mem (g : HebbianNetwork) (l : List String)
    (hnd : l.Nodup) (p q : String) (hp : p ∈ l) (hq : q ∈ l) (hpq : p ≠ q) :
    (coActivate g l).getStrength p q =
      qmin g.maxStrength (qadd (g.getStrength p q) (mkRat 1 10)) := by
  induction l generalizing g with
  | nil => exact absurd hp (List.not_mem_nil p)
  | cons x rest ih =>
    rw [List.nodup_cons] at hnd
    rcases List.mem_cons.mp hp with hpx | hpr
    · subst hpx
      have hqr : q ∈ rest := by
        rcases List.mem_cons.mp hq with hqx | hqr
        · exact absurd hqx.symm hpq
        · exact hqr
      rw [coActivate,
        getStrength_coActivate_untouched _ rest p q (Or.inl hnd.1),
        getStrength_strengthenAll_hit g p rest hnd.1 hnd.2 q hqr]
    · rcases List.mem_cons.mp hq with hqx | hqr
      · subst hqx
        rw [coActivate,
          getStrength_coActivate_untouched _ rest p q (Or.inr hnd.1),
          getStrength_strengthenAll_hit_rev g q rest hnd.1 hnd.2 p hpr]
      · have hbase := getStrength_strengthenAll_untouched g x rest p q
          (by
            push_neg
            exact ⟨fun hc => absurd (hc ▸ hpr) hnd.1, fun hc => absurd (hc ▸ hqr) hnd.1⟩)
        rw [coActivate, ih _ hnd.2 hpr hqr, hbase, maxStrength_strengthenAll]

end HebbianNetwork

/-! ## Fleeting store (`src/memory/fleeting.ts`) -/

/-- Lowercased character list of a string (`toLowerCase()`; exact on ASCII,
which is all the tokenizer-relevant range of `\w`). -/
def toLowerStr (s : String) : List Char :=
  s.data.map Char.toLower

/-- JS `String.prototype.includes` on character lists. -/
def containsSub : List Char → List Char → Bool
  | [], needle => needle.isEmpty
  | c :: t, needle => needle.isPrefixOf (c :: t) || containsSub t needle

/-- The fleeting `search` predicate: the lowercased content, or any
lowercased tag, contains the lowercased query as a substring. -/
def fleetingMatch (query : String) (e : MemoryEntry) : Bool :=
  containsSub (toLowerStr e.content) (toLowerStr query) ||
    e.tags.any (fun t => containsSub (toLowerStr t) (toLowerStr query))

structure FleetingMemory : Type where
  store : List (String × MemoryEntry)
deriving DecidableEq, Repr

namespace FleetingMemory

def empty : FleetingMemory := ⟨[]⟩

def add (f : FleetingMemory) (id : String) (now : ℚ) (content : String)
    (importance : ℚ) (tags : List String) : FleetingMemory × MemoryEntry :=
  let entry := createMemoryEntry id content importance tags MemoryTier.fleeting now
  (⟨mapSet f.store id entry⟩, entry)

def get (f : FleetingMemory) (id : String) (now : ℚ) :
    FleetingMemory × Option MemoryEntry :=
  match mapLookup f.store id with
  | none => (f, none)
  | some e =>
    let e2 := bumpAccess e now
    (⟨mapSet f.store id e2⟩, some e2)

/-- `search(query)`: substring matches in insertion order; no store writes. -/
def search (f : FleetingMemory) (query : String) : List MemoryEntry :=
  (f.store.map Prod.snd).filter (fleetingMatch query)

def remove (f : FleetingMemory) (id : String) : FleetingMemory × Bool :=
  (⟨mapErase f.store id⟩, mapHas f.store id)

def clear (_ : FleetingMemory) : FleetingMemory := ⟨[]⟩

def size (f : FleetingMemory) : ℕ := f.store.length

end FleetingMemory

/-! ## Working-set store (`src/memory/short-term.ts`) -/

structure ShortTermMemory : Type where
  entries : List MemoryEntry
  maxSize : ℕ
  compressionThreshold : ℚ
deriving DecidableEq, Repr

namespace ShortTermMemory

/-- `new ShortTermMemory({maxSize, compressionThreshold})` with the default
configuration values filled in by the caller. -/
def init (maxSize : ℕ) (compressionThreshold : ℚ) : ShortTermMemory :=
  ⟨[], maxSize, compressionThreshold⟩

/-- `evict()`: keep the `maxSize` most relevant entries (stable sort by
relevance descending, then truncate). -/
def evict (st : ShortTermMemory) (now : ℚ) : ShortTermMemory :=
  { st with entries := (sortByDesc (fun e => relevanceSq e now) st.entries).take st.maxSize }

def add (st : ShortTermMemory) (id : String) (now : ℚ) (content : String)
    (importance : ℚ) (tags : List String) : ShortTermMemory × MemoryEntry :=
  let entry := createMemoryEntry id content importance tags MemoryTier.short_term now
  let grown := { st with entries := st.entries ++ [entry] }
  (if st.maxSize < grown.entries.length then evict grown now else grown, entry)

/-- Bump the first entry with the given id, in place. -/
def bumpFirst : List MemoryEntry → String → ℚ → List MemoryEntry × Option MemoryEntry
  | [], _, _ => ([], none)
  | e :: t, id, now =>
    if e.id = id then (bumpAccess e now :: t, some (bumpAccess e now))
    else
      let r := bumpFirst t id now
      (e :: r.1, r.2)

def get (st : ShortTermMemory) (id : String) (now : ℚ) :
    ShortTermMemory × Option MemoryEntry :=
  let r := bumpFirst st.entries id now
  ({ st with entries := r.1 }, r.2)

/-- `search(query, limit)`: Jaccard-score every entry, keep positive scores,
sort descending, truncate.  The source performs no store writes here. -/
def search (st : ShortTermMemory) (query : String) (limit : ℕ) : List MemoryEntry :=
  let scored := st.entries.map (fun e => (e, jaccardSimilarity query e.content))
  ((sortByDesc (fun s => s.2) (scored.filter (fun s => 0 < s.2))).take limit).map
    (fun s => s.1)

/-- A compression promotion candidate: `accessCount >= 3 || importance >= 0.7`. -/
def isPromotable (e : MemoryEntry) : Prop :=
  3 ≤ e.accessCount ∨ mkRat 7 10 ≤ e.importance

instance (e : MemoryEntry) : Decidable (isPromotable e) := by
  unfold isPromotable; infer_instance

/-- `compress()`: no-op below the occupancy threshold
(`entries.length / maxSize < compressionThreshold`, embedded multiplied out
as `length < threshold * maxSize`, equivalent for `maxSize > 0`; for
`maxSize = 0` the JS division yields `Infinity`/`NaN`, the comparison is
false and compression proceeds, as here).  Otherwise sort by relevance
descending, collect promotable entries, remove them from the store and
return them. -/
def compress (st : ShortTermMemory) (now : ℚ) :
    ShortTermMemory × List MemoryEntry :=
  if (st.entries.length : ℚ) < qmul st.compressionThreshold (st.maxSize : ℚ) then (st, [])
  else
    let sorted := sortByDesc (fun e => relevanceSq e now) st.entries
    let promotionCandidates := sorted.filter (fun e => isPromotable e)
    let promotedIds := promotionCandidates.map (fun e => e.id)
    ({ st with entries := st.entries.filter (fun e => e.id ∉ promotedIds) },
      promotionCandidates)

def remove (st : ShortTermMemory) (id : String) : ShortTermMemory × Bool :=
  if st.entries.any (fun e => e.id = id) then
    ({ st with entries := st.entries.eraseP (fun e => e.id = id) }, true)
  else (st, false)

def clear (st : ShortTermMemory) : ShortTermMemory := { st with entries := [] }

def size (st : ShortTermMemory) : ℕ := st.entries.length

end ShortTermMemory

/-! ## Long-term store (`src/memory/long-term.ts`) -/

/-- The persisted document (`StorageFormat`).  `associations` is optional
because `load()` guards on `if (stored.associations)`; a document written by
`save()` always carries it. -/
structure StorageFormat : Type where
  entries : List MemoryEntry
  associations : Option HebbianNetwork.GraphDoc
  version : ℕ
deriving DecidableEq, Repr

structure LongTermMemory : Type where
  entries : List (String × MemoryEntry)
  storagePath : String
  pruneThreshold : ℚ
  maxEntries : ℕ
  network : HebbianNetwork
  dirty : Bool
deriving DecidableEq, Repr

namespace LongTermMemory

/-- `new LongTermMemory({storagePath, pruneThreshold, maxEntries})`; the
owned graph is `new HebbianNetwork()` with its default rates. -/
def init (storagePath : String) (pruneThreshold : ℚ) (maxEntries : ℕ) :
    LongTermMemory :=
  { entries := []
    storagePath := storagePath
    pruneThreshold := pruneThreshold
    maxEntries := maxEntries
    network := HebbianNetwork.mk0 (mkRat 5 100) 1
    dirty := false }

/-- `load()`: no-op without a storage path; on a successful read-and-parse,
replace the entries (keyed by id, in document order) and, when the document
carries `associations`, the graph; any read or parse failure is swallowed
by the `catch` and leaves the store as it was.  The caller receives no
signal in either case. -/
def load (lt : LongTermMemory) (r : Except String StorageFormat) : LongTermMemory :=
  if lt.storagePath = "" then lt
  else
    match r with
    | Except.error _ => lt
    | Except.ok stored =>
      let entries := stored.entries.foldl (fun m e => mapSet m e.id e) []
      let network :=
        match stored.associations with
        | some doc => HebbianNetwork.fromJSON doc none none
        | none => lt.network
      { lt with entries := entries, network := network }

/-- `save()`: writes nothing without a path or when clean; otherwise writes
the whole document and clears the dirty flag.  The returned `Option` is the
document written. -/
def save (lt : LongTermMemory) : Option StorageFormat × LongTermMemory :=
  if lt.storagePath = "" ∨ lt.dirty = false then (none, lt)
  else
    (some { entries := lt.entries.map Prod.snd
            associations := some (HebbianNetwork.toJSON lt.network)
            version := 1 },
      { lt with dirty := false })

def add (lt : LongTermMemory) (id : String) (now : ℚ) (content : String)
    (importance : ℚ) (tags : List String) : LongTermMemory × MemoryEntry :=
  let entry := createMemoryEntry id content importance tags MemoryTier.long_term now
  ({ lt with entries := mapSet lt.entries id entry, dirty := true }, entry)

/-- `promote(entry)`: force the tier to `long_term` and insert/overwrite. -/
def promote (lt : LongTermMemory) (entry : MemoryEntry) :
    LongTermMemory × MemoryEntry :=
  let promoted := { entry with source := MemoryTier.long_term }
  ({ lt with entries := mapSet lt.entries promoted.id promoted, dirty := true },
    promoted)

def get (lt : LongTermMemory) (id : String) (now : ℚ) :
    LongTermMemory × Option MemoryEntry :=
  match mapLookup lt.entries id with
  | none => (lt, none)
  | some e =>
    let e2 := bumpAccess e now
    ({ lt with entries := mapSet lt.entries id e2, dirty := true }, some e2)

/-- `search(query, limit)`: Jaccard-rank the entries, keep positive scores,
truncate, and bump every returned entry's access bookkeeping (the store is
marked dirty when at least one entry is returned). -/
def search (lt : LongTermMemory) (query : String) (now : ℚ) (limit : ℕ) :
    LongTermMemory × List MemoryEntry :=
  let scored := (lt.entries.map Prod.snd).map (fun e => (e, jaccardSimilarity query e.content))
  let ranked := (sortByDesc (fun s => s.2) (scored.filter (fun s => 0 < s.2))).take limit
  let results := ranked.map (fun s => bumpAccess s.1 now)
  let entries2 := results.foldl (fun m e => mapSet m e.id e) lt.entries
  ({ lt with entries := entries2, dirty := if results.isEmpty then lt.dirty else true },
    results)

/-- The inner loop of `searchWithAssociations`: walk a direct hit's top-3
neighbors, appending every neighbor id not yet seen whose entry exists
(reading `entries` directly — no access bump for associative hits). -/
def assocStep (lt : LongTermMemory) (acc : List String × List MemoryEntry)
    (e : MemoryEntry) : List String × List MemoryEntry :=
  (HebbianNetwork.getStrongestAssociations lt.network e.id 3).foldl
    (fun acc2 p =>
      if p.1 ∈ acc2.1 then acc2
      else
        match mapLookup lt.entries p.1 with
        | some assocEntry => (p.1 :: acc2.1, acc2.2 ++ [assocEntry])
        | none => acc2)
    acc

/-- `searchWithAssociations(query, limit)`: direct hits first, then
association-expanded hits, truncated to `limit`. -/
def searchWithAssociations (lt : LongTermMemory) (query : String) (now : ℚ)
    (limit : ℕ) : LongTermMemory × List MemoryEntry :=
  let r := search lt query now limit
  let direct := r.2
  let expanded := direct.foldl (assocStep r.1) (direct.map (fun e => e.id), [])
  (r.1, (direct ++ expanded.2).take limit)

/-- The `prune()` loop: visit entries in iteration order; a visited entry
with positive access count and relevance below the threshold is deleted and
its node removed from the graph (`relevance < pruneThreshold` embedded as
`relevanceSq < pruneThreshold ^ 2`; exact for a monotone clock, where both
relevance and the default threshold are nonnegative). -/
def pruneGo (thrSq now : ℚ) :
    List (String × MemoryEntry) → HebbianNetwork →
      List (String × MemoryEntry) × HebbianNetwork × ℕ
  | [], net => ([], net, 0)
  | (id, e) :: t, net =>
    if relevanceSq e now < thrSq ∧ 0 < e.accessCount then
      let r := pruneGo thrSq now t (net.removeNode id)
      (r.1, r.2.1, r.2.2 + 1)
    else
      let r := pruneGo thrSq now t net
      ((id, e) :: r.1, r.2.1, r.2.2)

/-- `prune()`: returns the updated store and the number of entries removed. -/
def prune (lt : LongTermMemory) (now : ℚ) : LongTermMemory × ℕ :=
  let r := pruneGo (qmul lt.pruneThreshold lt.pruneThreshold) now lt.entries lt.network
  let lt2 : LongTermMemory :=
    { lt with
      entries := r.1
      network := r.2.1
      dirty := if 0 < r.2.2 then true else lt.dirty }
  (lt2, r.2.2)

def remove (lt : LongTermMemory) (id : String) : LongTermMemory × Bool :=
  if mapHas lt.entries id then
    let lt2 : LongTermMemory :=
      { lt with
        entries := mapErase lt.entries id
        network := lt.network.removeNode id
        dirty := true }
    (lt2, true)
  else (lt, false)

def size (lt : LongTermMemory) : ℕ := lt.entries.length

end LongTermMemory

/-! ## Memory manager (`src/memory/manager.ts`) -/

structure MemoryManager : Type where
  fleeting : FleetingMemory
  shortTerm : ShortTermMemory
  longTerm : LongTermMemory
  recentlyRecalled : List String
deriving DecidableEq, Repr

namespace MemoryManager

/-- `new MemoryManager({storagePath, shortTermMaxSize})`: the defaulted
sub-configurations are `compressionThreshold = 0.8`,
`pruneThreshold = 0.01`, `maxEntries = 1000`. -/
def init (storagePath : String) (shortTermMaxSize : ℕ) : MemoryManager :=
  { fleeting := FleetingMemory.empty
    shortTerm := ShortTermMemory.init shortTermMaxSize (mkRat 8 10)
    longTerm := LongTermMemory.init storagePath (mkRat 1 100) 1000
    recentlyRecalled := [] }

/-- `remember(content, importance = 0.5, tags = [])`: route on the raw
importance value. -/
def remember (m : MemoryManager) (id : String) (now : ℚ) (content : String)
    (importance : ℚ) (tags : List String) : MemoryManager × MemoryEntry :=
  if mkRat 7 10 ≤ importance then
    let r := m.longTerm.add id now content importance tags
    ({ m with longTerm := r.1 }, r.2)
  else if mkRat 4 10 ≤ importance then
    let r := m.shortTerm.add id now content importance tags
    ({ m with shortTerm := r.1 }, r.2)
  else
    let r := m.fleeting.add id now content importance tags
    ({ m with fleeting := r.1 }, r.2)

/-- The body of `addResults`: skip an already seen id, otherwise record the
id and push the entry with `jaccardSimilarity(query, content) + tierBoost`. -/
def mergeStep (query : String) (boost : ℚ)
    (acc : List String × List (MemoryEntry × ℚ)) (e : MemoryEntry) :
    List String × List (MemoryEntry × ℚ) :=
  if e.id ∈ acc.1 then acc
  else (acc.1 ++ [e.id], acc.2 ++ [(e, qadd (jaccardSimilarity query e.content) boost)])

/-- `recall(query, limit = 10)`. -/
def «recall» (m : MemoryManager) (now : ℚ) (query : String) (limit : ℕ) :
    MemoryManager × List MemoryEntry :=
  let r := m.longTerm.searchWithAssociations query now limit
  let longTermResults := r.2
  let shortTermResults := m.shortTerm.search query limit
  let fleetingResults := m.fleeting.search query
  let s1 := longTermResults.foldl (mergeStep query (mkRat 2 10)) ([], [])
  let s2 := shortTermResults.foldl (mergeStep query (mkRat 1 10)) s1
  let s3 := fleetingResults.foldl (mergeStep query 0) s2
  let results := ((sortByDesc (fun p => p.2) s3.2).take limit).map (fun p => p.1)
  let recalledIds := results.map (fun e => e.id)
  let net := if 1 < recalledIds.length then r.1.network.coActivate recalledIds
    else r.1.network
  let m2 : MemoryManager :=
    { m with
      longTerm := { r.1 with network := net }
      recentlyRecalled := recalledIds }
  (m2, results)

/-- `consolidate()`: compress and promote, decay the graph, prune, clear the
fleeting store, save; returns the number of entries promoted. -/
def consolidate (m : MemoryManager) (now : ℚ) : MemoryManager × ℕ :=
  let c := m.shortTerm.compress now
  let lt1 := c.2.foldl (fun lt e => (lt.promote e).1) m.longTerm
  let lt2 := { lt1 with network := lt1.network.decay }
  let p := lt2.prune now
  let fl := m.fleeting.clear
  let s := p.1.save
  ({ m with fleeting := fl, shortTerm := c.1, longTerm := s.2 }, c.2.length)

def getStats (m : MemoryManager) : ℕ × ℕ × ℕ :=
  (m.fleeting.size, m.shortTerm.size, m.longTerm.size)

end MemoryManager

/-! ## Claim theorems -/

/-- C1: `remember(content, i, tags)` routes the new entry's tier purely by
the raw importance argument: `long_term` when `i ≥ 0.7`, `short_term` when
`0.4 ≤ i < 0.7`, `fleeting` otherwise — independent of the manager state,
the content, the tags, the generated id and the clock. -/
theorem remember_tier_routing (m : MemoryManager) (id : String) (now : ℚ)
    (content : String) (importance : ℚ) (tags : List String) :
    ((m.remember id now content importance tags).2).source =
      (if mkRat 7 10 ≤ importance then MemoryTier.long_term
       else if mkRat 4 10 ≤ importance then MemoryTier.short_term
       else MemoryTier.fleeting) := by
  unfold MemoryManager.remember
  by_cases h7 : mkRat 7 10 ≤ importance
  · rw [if_pos h7, if_pos h7]
    rfl
  · rw [if_neg h7, if_neg h7]
    by_cases h4 : mkRat 4 10 ≤ importance
    · rw [if_pos h4, if_pos h4]
      rfl
    · rw [if_neg h4, if_neg h4]
      rfl

/-- C4: starting from an empty associative graph, after any finite sequence
of `strengthen`, `coActivate`, `decay` and `removeNode` operations,
`getStrength(a, b) = getStrength(b, a)` for every pair of ids (and hence
after every intermediate operation, every prefix being such a sequence). -/
theorem graph_symmetry_invariant (decayRate maxStrength : ℚ) (ops : List GraphOp)
    (a b : String) :
    (applyOps (HebbianNetwork.mk0 decayRate maxStrength) ops).getStrength a b =
      (applyOps (HebbianNetwork.mk0 decayRate maxStrength) ops).getStrength b a :=
  (WF_Symm_applyOps _
    ⟨HebbianNetwork.WF_mk0 decayRate maxStrength,
      HebbianNetwork.Symm_mk0 decayRate maxStrength⟩ ops).2 a b

/-- C8: reconstructing a graph from its serialized form
(`fromJSON(toJSON(g))`) reproduces `getStrength(a, b)` for every pair with a
nonzero edge (in fact for every pair). -/
theorem graph_roundtrip (g : HebbianNetwork) (a b : String)
    (_h : g.getStrength a b ≠ 0) :
    (HebbianNetwork.fromJSON (HebbianNetwork.toJSON g) none none).getStrength a b =
      g.getStrength a b := rfl

/-- Witness for C8 at a concrete graph with a nonzero edge. -/
theorem graph_roundtrip_witness :
    ((HebbianNetwork.mk0 (mkRat 5 100) 1).strengthen "a" "b" (mkRat 3 10)).getStrength "a" "b" ≠ 0 ∧
      (HebbianNetwork.fromJSON
          (HebbianNetwork.toJSON ((HebbianNetwork.mk0 (mkRat 5 100) 1).strengthen "a" "b" (mkRat 3 10)))
          none none).getStrength "a" "b" =
        ((HebbianNetwork.mk0 (mkRat 5 100) 1).strengthen "a" "b" (mkRat 3 10)).getStrength "a" "b" :=
  ⟨by decide, graph_roundtrip _ "a" "b" (by decide)⟩

/-- The deletion condition of the `prune()` loop, as a Boolean. -/
def pruneCond (thrSq now : ℚ) (e : MemoryEntry) : Bool :=
  decide (relevanceSq e now < thrSq ∧ 0 < e.accessCount)

/-- The prune loop deletes exactly the entries meeting the condition, counts
them, and removes exactly their nodes from the graph, in iteration order. -/
theorem pruneGo_spec (thrSq now : ℚ) (l : List (String × MemoryEntry))
    (net : HebbianNetwork) :
    (LongTermMemory.pruneGo thrSq now l net).1 =
        l.filter (fun p => !(pruneCond thrSq now p.2)) ∧
      (LongTermMemory.pruneGo thrSq now l net).2.2 =
        (l.filter (fun p => pruneCond thrSq now p.2)).length ∧
      (LongTermMemory.pruneGo thrSq now l net).2.1 =
        ((l.filter (fun p => pruneCond thrSq now p.2)).map Prod.fst).foldl
          HebbianNetwork.removeNode net := by
  induction l generalizing net with
  | nil => exact ⟨rfl, rfl, rfl⟩
  | cons p t ih =>
    obtain ⟨id, e⟩ := p
    by_cases hc : relevanceSq e now < thrSq ∧ 0 < e.accessCount
    · have hb : pruneCond thrSq now e = true := decide_eq_true hc
      have ih2 := ih (net.removeNode id)
      refine ⟨?_, ?_, ?_⟩
      · simp only [LongTermMemory.pruneGo, if_pos hc, List.filter_cons, hb,
          Bool.not_true, if_false]
        exact ih2.1
      · simp only [LongTermMemory.pruneGo, if_pos hc, List.filter_cons, hb,
          if_true, List.length_cons]
        rw [ih2.2.1]
      · simp only [LongTermMemory.pruneGo, if_pos hc, List.filter_cons, hb,
          if_true, List.map_cons, List.foldl_cons]
        exact ih2.2.2
    · have hb : pruneCond thrSq now e = false := decide_eq_false hc
      have ih2 := ih net
      refine ⟨?_, ?_, ?_⟩
      · simp only [LongTermMemory.pruneGo, if_neg hc, List.filter_cons, hb,
          Bool.not_false, if_true]
        rw [ih2.1]
      · simp only [LongTermMemory.pruneGo, if_neg hc, List.filter_cons, hb,
          if_false]
        exact ih2.2.1
      · simp only [LongTermMemory.pruneGo, if_neg hc, List.filter_cons, hb,
          if_false]
        exact ih2.2.2

/-- C7: `prune()` deletes exactly the entries with `accessCount > 0` whose
relevance at prune time is below `pruneThreshold` (embedded squared:
`relevanceSq < pruneThreshold²`), calls `removeNode` on the graph for each
deleted id (in iteration order), returns the number removed, and never
removes an entry with `accessCount = 0`. -/
theorem prune_spec (lt : LongTermMemory) (now : ℚ) :
    ((lt.prune now).1.entries =
        lt.entries.filter
          (fun p => !(pruneCond (qmul lt.pruneThreshold lt.pruneThreshold) now p.2))) ∧
      ((lt.prune now).2 =
        (lt.entries.filter
          (fun p => pruneCond (qmul lt.pruneThreshold lt.pruneThreshold) now p.2)).length) ∧
      ((lt.prune now).1.network =
        (((lt.entries.filter
            (fun p => pruneCond (qmul lt.pruneThreshold lt.pruneThreshold) now p.2)).map
          Prod.fst).foldl HebbianNetwork.removeNode lt.network)) ∧
      (∀ id e, (id, e) ∈ lt.entries → e.accessCount = 0 →
        (id, e) ∈ (lt.prune now).1.entries) := by
  have h := pruneGo_spec (qmul lt.pruneThreshold lt.pruneThreshold) now
    lt.entries lt.network
  have h1 : (lt.prune now).1.entries =
      lt.entries.filter
        (fun p => !(pruneCond (qmul lt.pruneThreshold lt.pruneThreshold) now p.2)) := h.1
  refine ⟨h1, h.2.1, h.2.2, ?_⟩
  intro id e hmem hacc
  rw [h1]
  refine List.mem_filter.mpr ⟨hmem, ?_⟩
  simp [pruneCond, hacc]

/-- Prune witness: an aged, accessed, low-relevance entry. -/
def pruneWitnessOld : MemoryEntry :=
  { id := "o", content := "old fact", importance := mkRat 1 100, accessCount := 1,
    createdAt := 0, lastAccessed := 0, tags := [], associations := [],
    source := MemoryTier.long_term }

/-- Prune witness: a never-accessed entry of equally low relevance. -/
def pruneWitnessNew : MemoryEntry :=
  { id := "z", content := "zero accesses", importance := mkRat 1 100,
    accessCount := 0, createdAt := 0, lastAccessed := 0, tags := [],
    associations := [], source := MemoryTier.long_term }

/-- Prune witness store (90 days of aging at prune time). -/
def pruneWitnessStore : LongTermMemory :=
  { entries := [("o", pruneWitnessOld), ("z", pruneWitnessNew)]
    storagePath := "mem.json"
    pruneThreshold := mkRat 1 100
    maxEntries := 1000
    network := HebbianNetwork.mk0 (mkRat 5 100) 1
    dirty := false }

/-- Witness for C7: at the concrete store, the never-accessed entry survives
`prune()` while the aged accessed one is removed (count 1). -/
theorem prune_spec_witness :
    ("z", pruneWitnessNew) ∈ (pruneWitnessStore.prune 7776000000).1.entries ∧
      (pruneWitnessStore.prune 7776000000).2 = 1 :=
  ⟨(prune_spec pruneWitnessStore 7776000000).2.2.2 "z" pruneWitnessNew
      (by decide) rfl,
    by decide⟩

/-- One `add(content, importance, tags)` call on the working-set store, with
its generated id and wall-clock reading. -/
structure AddCall : Type where
  id : String
  now : ℚ
  content : String
  importance : ℚ
  tags : List String

/-- Run a sequence of `add` calls. -/
def runAdds (st : ShortTermMemory) : List AddCall → ShortTermMemory
  | [] => st
  | c :: rest => runAdds (st.add c.id c.now c.content c.importance c.tags).1 rest

theorem maxSize_add (st : ShortTermMemory) (id : String) (now : ℚ)
    (content : String) (importance : ℚ) (tags : List String) :
    ((st.add id now content importance tags).1).maxSize = st.maxSize := by
  unfold ShortTermMemory.add ShortTermMemory.evict
  dsimp only
  split <;> rfl

theorem size_add_le (st : ShortTermMemory) (id : String) (now : ℚ)
    (content : String) (importance : ℚ) (tags : List String) :
    ((st.add id now content importance tags).1).size ≤ st.maxSize := by
  unfold ShortTermMemory.add ShortTermMemory.evict ShortTermMemory.size
  dsimp only
  split
  · rw [List.length_take]
    exact min_le_left _ _
  · rename_i hlt
    exact Nat.not_lt.mp hlt

theorem size_runAdds_le (calls : List AddCall) (st : ShortTermMemory)
    (h : st.size ≤ st.maxSize) :
    (runAdds st calls).size ≤ st.maxSize := by
  induction calls generalizing st with
  | nil => exact h
  | cons c rest ih =>
    have h2 := size_add_le st c.id c.now c.content c.importance c.tags
    have h3 := maxSize_add st c.id c.now c.content c.importance c.tags
    have := ih (st.add c.id c.now c.content c.importance c.tags).1 (h3 ▸ h2)
    rw [h3] at this
    exact this

/-- C5: the working-set size bound `size() ≤ maxSize` holds after every
`add` of any call sequence on a freshly configured store; and a 6th `add`
on a store holding 5 entries with `maxSize = 5` keeps the size at 5,
dropping exactly one entry (`dropped`), one of minimal relevance at that
moment, the rest surviving unchanged (as a permutation fact). -/
theorem shortTerm_bound_and_eviction :
    (∀ (maxSize : ℕ) (thr : ℚ) (calls : List AddCall),
      (runAdds (ShortTermMemory.init maxSize thr) calls).size ≤ maxSize) ∧
      (∀ (st : ShortTermMemory) (id : String) (now : ℚ) (content : String)
          (importance : ℚ) (tags : List String),
        st.maxSize = 5 → st.entries.length = 5 →
        ((st.add id now content importance tags).1.size = 5 ∧
          ∃ dropped,
            dropped ∈ st.entries ++
              [createMemoryEntry id content importance tags MemoryTier.short_term now] ∧
              ((st.add id now content importance tags).1.entries ++ [dropped]).Perm
                (st.entries ++
                  [createMemoryEntry id content importance tags MemoryTier.short_term now]) ∧
              ∀ e ∈ (st.add id now content importance tags).1.entries,
                relevanceSq dropped now ≤ relevanceSq e now)) := by
  constructor
  · intro maxSize thr calls
    exact size_runAdds_le calls (ShortTermMemory.init maxSize thr) (Nat.zero_le _)
  · intro st id now content importance tags hmax hlen
    set newE := createMemoryEntry id content importance tags MemoryTier.short_term now
      with hnewE
    have hcond : st.maxSize < (st.entries ++ [newE]).length := by
      rw [List.length_append, hlen, hmax, List.length_singleton]
      omega
    have hadd : (st.add id now content importance tags).1.entries =
        (sortByDesc (fun e => relevanceSq e now) (st.entries ++ [newE])).take st.maxSize := by
      unfold ShortTermMemory.add ShortTermMemory.evict
      dsimp only
      rw [if_pos hcond]
    set s := sortByDesc (fun e => relevanceSq e now) (st.entries ++ [newE]) with hs
    have hsperm : s.Perm (st.entries ++ [newE]) := sortByDesc_perm _ _
    have hslen : s.length = 6 := by
      rw [hsperm.length_eq, List.length_append, hlen]
      rfl
    have hdlen : (s.drop 5).length = 1 := by
      rw [List.length_drop, hslen]
    obtain ⟨d, hd⟩ := List.length_eq_one.mp hdlen
    have htd : s.take 5 ++ [d] = s := by
      rw [← hd]
      exact List.take_append_drop 5 s
    have hsorted := sortByDesc_sorted (fun e => relevanceSq e now) (st.entries ++ [newE])
    rw [← hs] at hsorted
    have hpair := List.pairwise_append.mp (htd ▸ hsorted)
    constructor
    · unfold ShortTermMemory.size
      rw [hadd, hmax, List.length_take, hslen]
      rfl
    · refine ⟨d, ?_, ?_, ?_⟩
      · exact hsperm.subset (List.drop_subset 5 s (by rw [hd]; exact List.mem_singleton_self d))
      · rw [hadd, hmax, htd]
        exact hsperm
      · intro e he
        rw [hadd, hmax] at he
        exact hpair.2.2 e he d (List.mem_singleton_self d)

/-- A working-set store at its configured capacity of 5. -/
def evictWitnessStore : ShortTermMemory :=
  { entries :=
      [createMemoryEntry "1" "first note" (mkRat 5 10) [] MemoryTier.short_term 0,
        createMemoryEntry "2" "second note" (mkRat 5 10) [] MemoryTier.short_term 0,
        createMemoryEntry "3" "third note" (mkRat 5 10) [] MemoryTier.short_term 0,
        createMemoryEntry "4" "fourth note" (mkRat 5 10) [] MemoryTier.short_term 0,
        createMemoryEntry "5" "fifth note" (mkRat 5 10) [] MemoryTier.short_term 0]
    maxSize := 5
    compressionThreshold := mkRat 8 10 }

/-- Witness for C5: the 6th `add` on the full `maxSize = 5` store leaves
exactly 5 entries. -/
theorem shortTerm_bound_witness :
    ((evictWitnessStore.add "6" 1 "sixth note" (mkRat 5 10) []).1.size = 5) :=
  (shortTerm_bound_and_eviction.2 evictWitnessStore "6" 1 "sixth note"
    (mkRat 5 10) [] rfl (by decide)).1

/-- `mergeStep` with the tier boost carried on the entry, so the three
`addResults` passes become one fold over a tagged concatenation. -/
def taggedMergeStep (query : String)
    (acc : List String × List (MemoryEntry × ℚ)) (p : MemoryEntry × ℚ) :
    List String × List (MemoryEntry × ℚ) :=
  if p.1.id ∈ acc.1 then acc
  else (acc.1 ++ [p.1.id], acc.2 ++ [(p.1, qadd (jaccardSimilarity query p.1.content) p.2)])

theorem mergeStep_eq_tagged (query : String) (boost : ℚ) (l : List MemoryEntry)
    (st : List String × List (MemoryEntry × ℚ)) :
    l.foldl (MemoryManager.mergeStep query boost) st =
      (l.map (fun e => (e, boost))).foldl (taggedMergeStep query) st := by
  induction l generalizing st with
  | nil => rfl
  | cons e t ih =>
    rw [List.foldl_cons, List.map_cons, List.foldl_cons]
    exact ih _

/-- Merge by id, first occurrence winning — the claim's description of the
dedup stage, written directly from the spec's words. -/
def dedupTagged (seen : List String) : List (MemoryEntry × ℚ) → List (MemoryEntry × ℚ)
  | [] => []
  | p :: rest =>
    if p.1.id ∈ seen then dedupTagged seen rest
    else p :: dedupTagged (seen ++ [p.1.id]) rest

theorem taggedFold_spec (query : String) (l : List (MemoryEntry × ℚ))
    (seen : List String) (acc : List (MemoryEntry × ℚ)) :
    (l.foldl (taggedMergeStep query) (seen, acc)).2 =
      acc ++ (dedupTagged seen l).map
        (fun p => (p.1, qadd (jaccardSimilarity query p.1.content) p.2)) := by
  induction l generalizing seen acc with
  | nil => simp [dedupTagged]
  | cons p t ih =>
    rw [List.foldl_cons]
    by_cases hmem : p.1.id ∈ seen
    · have hstep : taggedMergeStep query (seen, acc) p = (seen, acc) := by
        simp [taggedMergeStep, hmem]
      rw [hstep, ih]
      simp [dedupTagged, hmem]
    · have hstep : taggedMergeStep query (seen, acc) p =
          (seen ++ [p.1.id],
            acc ++ [(p.1, qadd (jaccardSimilarity query p.1.content) p.2)]) := by
        simp [taggedMergeStep, hmem]
      rw [hstep, ih]
      simp [dedupTagged, hmem]

/-- The claim's description of `recall`, from the spec's words: tag
long-term hits with boost `0.2`, working-set hits with `0.1`, fleeting hits
with `0`; merge in that precedence order by id (first occurrence wins);
score survivors as `jaccardSimilarity(query, content) + boost`; sort
descending by score (stable); truncate to `limit`. -/
def specRecall (query : String) (limit : ℕ)
    (longTermResults shortTermResults fleetingResults : List MemoryEntry) :
    List MemoryEntry :=
  let tagged := longTermResults.map (fun e => (e, mkRat 2 10)) ++
    shortTermResults.map (fun e => (e, mkRat 1 10)) ++
    fleetingResults.map (fun e => (e, (0 : ℚ)))
  let surviving := dedupTagged [] tagged
  let scored := surviving.map
    (fun p => (p.1, qadd (jaccardSimilarity query p.1.content) p.2))
  ((sortByDesc (fun p => p.2) scored).take limit).map (fun p => p.1)

/-- The returned list of `recall` equals the spec-shaped pipeline. -/
theorem recall_results_eq (m : MemoryManager) (now : ℚ) (query : String)
    (limit : ℕ) :
    (m.«recall» now query limit).2 =
      specRecall query limit (m.longTerm.searchWithAssociations query now limit).2
        (m.shortTerm.search query limit) (m.fleeting.search query) := by
  unfold MemoryManager.recall specRecall
  dsimp only
  rw [mergeStep_eq_tagged, mergeStep_eq_tagged, mergeStep_eq_tagged,
    ← List.foldl_append, ← List.foldl_append, taggedFold_spec]
  rw [List.nil_append, List.append_assoc]

/-- C3: the list `recall(query, limit)` returns is exactly the claim's
pipeline — the three tier searches merged by id with first occurrence
winning in long-term → working-set → fleeting precedence, each survivor
scored as the Jaccard similarity of the query to its content plus the tier
boost of its origin (0.2 long-term, 0.1 working-set, 0 fleeting), sorted
descending by that combined score and truncated to `limit`. -/
theorem recall_pipeline_spec (m : MemoryManager) (now : ℚ) (query : String)
    (limit : ℕ) :
    (m.«recall» now query limit).2 =
      specRecall query limit (m.longTerm.searchWithAssociations query now limit).2
        (m.shortTerm.search query limit) (m.fleeting.search query) :=
  recall_results_eq m now query limit

theorem mapLookup_filter_of_lookup {β : Type} (l : List (String × β))
    (p : String × β → Bool) (id : String) (v : β)
    (hl : mapLookup l id = some v) (hp : p (id, v) = true) :
    mapLookup (l.filter p) id = some v := by
  induction l with
  | nil => simp [mapLookup] at hl
  | cons q t ih =>
    obtain ⟨k, w⟩ := q
    by_cases hk : k = id
    · subst hk
      rw [mapLookup_cons, if_pos rfl] at hl
      injection hl with hl
      subst hl
      rw [List.filter_cons, if_pos hp, mapLookup_cons, if_pos rfl]
    · rw [mapLookup_cons, if_neg hk] at hl
      rw [List.filter_cons]
      by_cases hw : p (k, w) = true
      · rw [if_pos hw, mapLookup_cons, if_neg hk]
        exact ih hl
      · rw [if_neg hw]
        exact ih hl

/-- Promoting a batch leaves ids outside the batch untouched. -/
theorem promote_fold_lookup_notin (lt : LongTermMemory) (l : List MemoryEntry)
    (id : String) (hid : id ∉ l.map (fun x => x.id)) :
    mapLookup ((l.foldl (fun acc x => (acc.promote x).1) lt).entries) id =
      mapLookup lt.entries id := by
  induction l generalizing lt with
  | nil => rfl
  | cons x t ih =>
    rw [List.map_cons, List.mem_cons] at hid
    push_neg at hid
    rw [List.foldl_cons, ih _ hid.2]
    exact mapLookup_set_ne _ _ _ _ (fun hh => hid.1 hh.symm)

/-- After promoting a dup-free batch, each batch entry is stored under its
id with its tier forced to `long_term`. -/
theorem promote_fold_lookup (lt : LongTermMemory) (l : List MemoryEntry)
    (e : MemoryEntry) (he : e ∈ l) (hnd : (l.map (fun x => x.id)).Nodup) :
    mapLookup ((l.foldl (fun acc x => (acc.promote x).1) lt).entries) e.id =
      some { e with source := MemoryTier.long_term } := by
  induction l generalizing lt with
  | nil => exact absurd he (List.not_mem_nil e)
  | cons x t ih =>
    rw [List.map_cons, List.nodup_cons] at hnd
    rcases List.mem_cons.mp he with heq | hmem
    · subst heq
      rw [List.foldl_cons, promote_fold_lookup_notin _ _ _ hnd.1]
      exact mapLookup_set_self _ _ _
    · exact ih _ hmem hnd.2

theorem save_entries (lt : LongTermMemory) : ((lt.save).2).entries = lt.entries := by
  unfold LongTermMemory.save
  split <;> rfl

/-- `compress()` at or above the occupancy threshold, component-wise. -/
theorem compress_triggered (st : ShortTermMemory) (now : ℚ)
    (hth : ¬ ((st.entries.length : ℚ) <
      qmul st.compressionThreshold (st.maxSize : ℚ))) :
    (st.compress now).2 =
        (sortByDesc (fun e => relevanceSq e now) st.entries).filter
          (fun e => ShortTermMemory.isPromotable e) ∧
      (st.compress now).1.entries =
        st.entries.filter
          (fun e => e.id ∉ (((sortByDesc (fun e => relevanceSq e now) st.entries).filter
            (fun e => ShortTermMemory.isPromotable e)).map (fun e => e.id))) := by
  unfold ShortTermMemory.compress
  rw [if_neg hth]
  exact ⟨rfl, rfl⟩

/-- The long-term store after step 1 of `consolidate()`: every entry
returned by working-set `compress()` promoted, in order. -/
def postPromotion (m : MemoryManager) (now : ℚ) : LongTermMemory :=
  ((m.shortTerm.compress now).2).foldl (fun acc x => (acc.promote x).1) m.longTerm

theorem promote_fold_pruneThreshold (lt : LongTermMemory) (l : List MemoryEntry) :
    (l.foldl (fun acc x => (acc.promote x).1) lt).pruneThreshold = lt.pruneThreshold := by
  induction l generalizing lt with
  | nil => rfl
  | cons x t ih => exact (ih _).trans rfl

/-- What `consolidate()` leaves in long-term storage: the promoted store,
graph-decayed, with the prune loop's deletions applied, as persisted. -/
theorem consolidate_longTerm_entries (m : MemoryManager) (now : ℚ) :
    (m.consolidate now).1.longTerm.entries =
      (LongTermMemory.pruneGo
        (qmul (postPromotion m now).pruneThreshold (postPromotion m now).pruneThreshold)
        now (postPromotion m now).entries ((postPromotion m now).network.decay)).1 := by
  have h0 : (m.consolidate now).1.longTerm =
      ((LongTermMemory.prune
        { postPromotion m now with network := (postPromotion m now).network.decay }
        now).1.save).2 := rfl
  rw [h0, save_entries]
  rfl

/-- C2 (amended): when `consolidate()` runs with the working set at or above
its compression threshold, then afterward the fleeting store has size 0 and
the return value counts exactly the promotable working-set entries
(`accessCount ≥ 3` or `importance ≥ 0.7`); each such entry (under dup-free
working-set ids) leaves the working set, and — provided it is not
immediately pruned again, i.e. its access count is 0 or its relevance at
consolidation time is not below `pruneThreshold` — is retrievable from
long-term storage with its tier forced to `long_term`. -/
theorem consolidate_spec (m : MemoryManager) (now : ℚ) (e : MemoryEntry)
    (hth : ¬ ((m.shortTerm.entries.length : ℚ) <
      qmul m.shortTerm.compressionThreshold (m.shortTerm.maxSize : ℚ)))
    (hnd : (m.shortTerm.entries.map (fun x => x.id)).Nodup)
    (he : e ∈ m.shortTerm.entries)
    (hcand : ShortTermMemory.isPromotable e)
    (hkeep : e.accessCount = 0 ∨
      ¬ (relevanceSq e now < qmul m.longTerm.pruneThreshold m.longTerm.pruneThreshold)) :
    ((m.consolidate now).1.fleeting.size = 0) ∧
      (mapLookup (m.consolidate now).1.longTerm.entries e.id =
        some { e with source := MemoryTier.long_term }) ∧
      (e.id ∉ (m.consolidate now).1.shortTerm.entries.map (fun x => x.id)) ∧
      ((m.consolidate now).2 =
        (m.shortTerm.entries.filter (fun x => ShortTermMemory.isPromotable x)).length) := by
  have hcomp := compress_triggered m.shortTerm now hth
  have hsortperm := sortByDesc_perm (fun e => relevanceSq e now) m.shortTerm.entries
  have hcandmem : e ∈ (sortByDesc (fun e => relevanceSq e now) m.shortTerm.entries).filter
      (fun e => ShortTermMemory.isPromotable e) :=
    List.mem_filter.mpr ⟨hsortperm.mem_iff.mpr he, decide_eq_true hcand⟩
  have hcandnd : (((sortByDesc (fun e => relevanceSq e now) m.shortTerm.entries).filter
      (fun e => ShortTermMemory.isPromotable e)).map (fun x => x.id)).Nodup := by
    have hperm := ((hsortperm.map (fun x : MemoryEntry => x.id)).nodup_iff).mpr hnd
    exact ((List.filter_sublist _).map (fun x : MemoryEntry => x.id)).nodup hperm
  have hthr := promote_fold_pruneThreshold m.longTerm ((m.shortTerm.compress now).2)
  refine ⟨rfl, ?_, ?_, ?_⟩
  · -- retrievable from long-term storage after prune and save
    have hlt1 : mapLookup ((postPromotion m now).entries) e.id =
        some { e with source := MemoryTier.long_term } := by
      unfold postPromotion
      rw [hcomp.1]
      exact promote_fold_lookup m.longTerm _ e hcandmem hcandnd
    have hp := pruneGo_spec
      (qmul (postPromotion m now).pruneThreshold (postPromotion m now).pruneThreshold)
      now (postPromotion m now).entries ((postPromotion m now).network.decay)
    rw [consolidate_longTerm_entries, hp.1]
    refine mapLookup_filter_of_lookup _ _ _ _ hlt1 ?_
    have hthr2 : (postPromotion m now).pruneThreshold = m.longTerm.pruneThreshold := hthr
    have hcond : pruneCond
        (qmul (postPromotion m now).pruneThreshold (postPromotion m now).pruneThreshold) now
        { e with source := MemoryTier.long_term } = false := by
      rw [hthr2]
      rcases hkeep with h0 | hrel
      · refine decide_eq_false ?_
        intro hcontra
        rw [show ({ e with source := MemoryTier.long_term } : MemoryEntry).accessCount =
          e.accessCount from rfl, h0] at hcontra
        exact absurd hcontra.2 (lt_irrefl 0)
      · refine decide_eq_false ?_
        intro hcontra
        exact hrel hcontra.1
    rw [hcond]
    rfl
  · -- gone from the working set
    rw [show (m.consolidate now).1.shortTerm = (m.shortTerm.compress now).1 from rfl,
      hcomp.2]
    intro hmem
    rcases List.mem_map.mp hmem with ⟨x, hx, hxid⟩
    rcases List.mem_filter.mp hx with ⟨_, hxkeep⟩
    rw [decide_eq_true_eq] at hxkeep
    refine hxkeep ?_
    rw [hxid]
    exact List.mem_map.mpr ⟨e, hcandmem, rfl⟩
  · -- the returned count
    rw [show (m.consolidate now).2 = ((m.shortTerm.compress now).2).length from rfl,
      hcomp.1]
    exact (hsortperm.filter _).length_eq

/-- A promotable working-set entry (three recorded accesses). -/
def promotableEntry : MemoryEntry :=
  { id := "B", content := "worthy short term memory", importance := mkRat 5 10,
    accessCount := 3, createdAt := 0, lastAccessed := 0, tags := [],
    associations := [], source := MemoryTier.short_term }

/-- A working set far below its compression threshold (1 entry of 50). -/
def belowThresholdWorkingSet : ShortTermMemory :=
  { entries := [promotableEntry], maxSize := 50, compressionThreshold := mkRat 8 10 }

/-- A manager whose working set is far below the compression threshold
(1 entry of 50 allowed). -/
def belowThresholdManager : MemoryManager :=
  { fleeting := FleetingMemory.empty
    shortTerm := belowThresholdWorkingSet
    longTerm := LongTermMemory.init "mem.json" (mkRat 1 100) 1000
    recentlyRecalled := [] }

/-- Counterexample to C2 as stated: a working-set entry with
`accessCount ≥ 3` exists before `consolidate()`, yet afterwards it is not
retrievable from long-term storage and is still in the working set, because
`compress()` is a no-op below its occupancy threshold
(`1/50 < compressionThreshold = 0.8`). -/
theorem consolidate_promotion_cex :
    ShortTermMemory.isPromotable promotableEntry ∧
      promotableEntry ∈ belowThresholdManager.shortTerm.entries ∧
      mapLookup (belowThresholdManager.consolidate 5).1.longTerm.entries "B" = none ∧
      "B" ∈ (belowThresholdManager.consolidate 5).1.shortTerm.entries.map
        (fun x => x.id) :=
  ⟨Or.inl (by decide), by decide, by decide, by decide⟩

/-- A fleeting scratch note, to be cleared by consolidation. -/
def scratchFleetingEntry : MemoryEntry :=
  { id := "f", content := "note", importance := mkRat 1 10, accessCount := 0,
    createdAt := 0, lastAccessed := 0, tags := [], associations := [],
    source := MemoryTier.fleeting }

/-- A single-slot working set, full and hence at threshold. -/
def atThresholdWorkingSet : ShortTermMemory :=
  { entries := [promotableEntry], maxSize := 1, compressionThreshold := mkRat 8 10 }

/-- A manager whose single working-set slot is full (at threshold). -/
def atThresholdManager : MemoryManager :=
  { fleeting := ⟨[("f", scratchFleetingEntry)]⟩
    shortTerm := atThresholdWorkingSet
    longTerm := LongTermMemory.init "mem.json" (mkRat 1 100) 1000
    recentlyRecalled := [] }

/-- Witness for the amended C2 at a concrete at-threshold manager. -/
theorem consolidate_spec_witness :
    ((atThresholdManager.consolidate 0).1.fleeting.size = 0) ∧
      (mapLookup (atThresholdManager.consolidate 0).1.longTerm.entries "B" =
        some { promotableEntry with source := MemoryTier.long_term }) ∧
      ("B" ∉ (atThresholdManager.consolidate 0).1.shortTerm.entries.map
        (fun x => x.id)) ∧
      ((atThresholdManager.consolidate 0).2 = 1) := by
  have h := consolidate_spec atThresholdManager 0 promotableEntry (by decide)
    (by decide) (by decide) (Or.inl (by decide)) (Or.inr (by decide))
  exact ⟨h.1, h.2.1, h.2.2.1, (h.2.2.2).trans (by decide)⟩

/-- The working-set `get` loop returns a bump of the first entry carrying
the requested id. -/
theorem bumpFirst_spec (l : List MemoryEntry) (id : String) (now : ℚ)
    (e : MemoryEntry) (h : (ShortTermMemory.bumpFirst l id now).2 = some e) :
    ∃ pre ∈ l, pre.id = id ∧ e = bumpAccess pre now := by
  induction l with
  | nil => simp [ShortTermMemory.bumpFirst] at h
  | cons x t ih =>
    by_cases hx : x.id = id
    · refine ⟨x, List.mem_cons_self x t, hx, ?_⟩
      simp only [ShortTermMemory.bumpFirst, if_pos hx] at h
      injection h with h
      exact h.symm
    · simp only [ShortTermMemory.bumpFirst, if_neg hx] at h
      obtain ⟨pre, hmem, hid, heq⟩ := ih h
      exact ⟨pre, List.mem_cons_of_mem x hmem, hid, heq⟩

/-- C6 (amended): `get` on a present id bumps `accessCount` (and
`lastAccessed`) in every tier's store, and every entry returned by the
long-term store's `search` is bumped; but the short-term and fleeting
`search` return their stored entries unchanged — those two searches perform
no access bookkeeping. -/
theorem access_bump_spec :
    (∀ (f : FleetingMemory) (id : String) (now : ℚ) (pre : MemoryEntry),
      mapLookup f.store id = some pre →
      (f.get id now).2 = some (bumpAccess pre now) ∧
        (bumpAccess pre now).accessCount = pre.accessCount + 1) ∧
      (∀ (st : ShortTermMemory) (id : String) (now : ℚ) (e : MemoryEntry),
        (st.get id now).2 = some e →
        ∃ pre ∈ st.entries, pre.id = id ∧ e = bumpAccess pre now ∧
          e.accessCount = pre.accessCount + 1) ∧
      (∀ (lt : LongTermMemory) (id : String) (now : ℚ) (pre : MemoryEntry),
        mapLookup lt.entries id = some pre →
        (lt.get id now).2 = some (bumpAccess pre now) ∧
          (bumpAccess pre now).accessCount = pre.accessCount + 1) ∧
      (∀ (lt : LongTermMemory) (query : String) (now : ℚ) (limit : ℕ)
          (e : MemoryEntry),
        e ∈ (lt.search query now limit).2 →
        ∃ pre ∈ lt.entries.map Prod.snd, e = bumpAccess pre now ∧
          e.accessCount = pre.accessCount + 1) ∧
      (∀ (st : ShortTermMemory) (query : String) (limit : ℕ) (e : MemoryEntry),
        e ∈ st.search query limit → e ∈ st.entries) ∧
      (∀ (f : FleetingMemory) (query : String) (e : MemoryEntry),
        e ∈ f.search query → e ∈ f.store.map Prod.snd) := by
  refine ⟨?_, ?_, ?_, ?_, ?_, ?_⟩
  · intro f id now pre hl
    unfold FleetingMemory.get
    rw [hl]
    exact ⟨rfl, rfl⟩
  · intro st id now e h
    obtain ⟨pre, hmem, hid, heq⟩ := bumpFirst_spec st.entries id now e h
    exact ⟨pre, hmem, hid, heq, by rw [heq]; rfl⟩
  · intro lt id now pre hl
    unfold LongTermMemory.get
    rw [hl]
    exact ⟨rfl, rfl⟩
  · intro lt query now limit e he
    unfold LongTermMemory.search at he
    dsimp only at he
    rcases List.mem_map.mp he with ⟨s, hs, hse⟩
    have hs1 := (sortByDesc_perm (fun s : MemoryEntry × ℚ => s.2) _).subset
      (List.take_subset limit _ hs)
    have hs2 : s ∈ (lt.entries.map Prod.snd).map
        (fun e => (e, jaccardSimilarity query e.content)) :=
      List.mem_of_mem_filter hs1
    rcases List.mem_map.mp hs2 with ⟨pre, hpre, hps⟩
    refine ⟨pre, hpre, ?_, ?_⟩
    · rw [← hse, ← hps]
    · rw [← hse, ← hps]
      rfl
  · intro st query limit e he
    unfold ShortTermMemory.search at he
    dsimp only at he
    rcases List.mem_map.mp he with ⟨s, hs, hse⟩
    have hs1 := (sortByDesc_perm (fun s : MemoryEntry × ℚ => s.2) _).subset
      (List.take_subset limit _ hs)
    have hs2 : s ∈ st.entries.map
        (fun e => (e, jaccardSimilarity query e.content)) :=
      List.mem_of_mem_filter hs1
    rcases List.mem_map.mp hs2 with ⟨pre, hpre, hps⟩
    rw [← hse, ← hps]
    exact hpre
  · intro f query e he
    exact List.mem_of_mem_filter he

/-- A never-read entry whose content matches "hello". -/
def unreadEntry : MemoryEntry :=
  { id := "h", content := "hello world", importance := mkRat 5 10,
    accessCount := 0, createdAt := 0, lastAccessed := 0, tags := [],
    associations := [], source := MemoryTier.short_term }

/-- A working-set store holding one never-read entry matching "hello". -/
def unreadStore : ShortTermMemory :=
  { entries := [unreadEntry], maxSize := 50, compressionThreshold := mkRat 8 10 }

/-- Counterexample to C6 as stated: the short-term `search` returns a match
whose `accessCount` is still 0 — no tier-store write happens in the
short-term (or fleeting) search path, so the "successful read" is not
counted. -/
theorem search_no_bump_cex :
    (unreadStore.search "hello" 10).map (fun e => e.accessCount) = [0] ∧
      (unreadStore.search "hello" 10).map (fun e => e.id) = ["h"] := by
  exact ⟨by decide, by decide⟩

/-- A never-read fleeting entry, for the bump witness. -/
def fleetingUnreadEntry : MemoryEntry :=
  { id := "h", content := "hello world", importance := mkRat 5 10,
    accessCount := 0, createdAt := 0, lastAccessed := 0, tags := [],
    associations := [], source := MemoryTier.fleeting }

/-- A fleeting store with one entry, for the bump witness. -/
def bumpWitnessFleeting : FleetingMemory :=
  ⟨[("h", fleetingUnreadEntry)]⟩

/-- Witness for the amended C6: a concrete `get` hit is bumped to
`accessCount = 1`. -/
theorem access_bump_witness :
    (bumpWitnessFleeting.get "h" 5).2 = some (bumpAccess fleetingUnreadEntry 5) ∧
      (bumpAccess fleetingUnreadEntry 5).accessCount = 1 := by
  have h := access_bump_spec.1 bumpWitnessFleeting "h" 5 fleetingUnreadEntry (by decide)
  exact ⟨h.1, h.2⟩

/-- The merge stage emits ids at most once each, and none already seen. -/
theorem dedupTagged_ids (seen : List String) (l : List (MemoryEntry × ℚ)) :
    ((dedupTagged seen l).map (fun p => p.1.id)).Nodup ∧
      ∀ p ∈ dedupTagged seen l, p.1.id ∉ seen := by
  induction l generalizing seen with
  | nil => exact ⟨List.nodup_nil, fun p hp => absurd hp (List.not_mem_nil p)⟩
  | cons p rest ih =>
    by_cases hmem : p.1.id ∈ seen
    · simp only [dedupTagged, if_pos hmem]
      exact ih seen
    · simp only [dedupTagged, if_neg hmem]
      have ihh := ih (seen ++ [p.1.id])
      constructor
      · rw [List.map_cons, List.nodup_cons]
        refine ⟨?_, ihh.1⟩
        intro hc
        rcases List.mem_map.mp hc with ⟨q, hq, hqid⟩
        exact (ihh.2 q hq)
          (hqid ▸ List.mem_append_right _ (List.mem_singleton_self _))
      · intro q hq
        rcases List.mem_cons.mp hq with hqp | hqr
        · subst hqp
          exact hmem
        · exact fun hc => (ihh.2 q hqr) (List.mem_append_left _ hc)

/-- The ids `recall` returns are pairwise distinct. -/
theorem recall_ids_nodup (m : MemoryManager) (now : ℚ) (query : String)
    (limit : ℕ) :
    (((m.«recall» now query limit).2).map (fun e => e.id)).Nodup := by
  rw [recall_results_eq]
  unfold specRecall
  dsimp only
  refine List.Sublist.nodup
    (List.Sublist.map _ (List.Sublist.map _ (List.take_sublist limit _))) ?_
  have hperm := ((sortByDesc_perm (fun p : MemoryEntry × ℚ => p.2)
    ((dedupTagged []
      ((m.longTerm.searchWithAssociations query now limit).2.map (fun e => (e, mkRat 2 10)) ++
        (m.shortTerm.search query limit).map (fun e => (e, mkRat 1 10)) ++
        (m.fleeting.search query).map (fun e => (e, (0 : ℚ))))).map
      (fun p => (p.1, qadd (jaccardSimilarity query p.1.content) p.2)))).map
    (fun p : MemoryEntry × ℚ => p.1)).map (fun e : MemoryEntry => e.id)
  rw [hperm.nodup_iff]
  simp only [List.map_map]
  exact (dedupTagged_ids [] _).1

/-- C10: whenever `recall` returns two or more entries, every unordered pair
of distinct returned ids has its link in the long-term store's graph
strengthened by the default amount `0.1` (each direction clamped at
`maxStrength`), regardless of the tier each entry came from; and every
returned id is a node of that graph, hence a key of the `toJSON` mapping
that `save` writes into the persisted document — even when no long-term
entry carries that id. -/
theorem recall_coactivation (m : MemoryManager) (now : ℚ) (query : String)
    (limit : ℕ) (h2 : 2 ≤ ((m.«recall» now query limit).2).length) :
    (∀ p q, p ∈ ((m.«recall» now query limit).2).map (fun e => e.id) →
      q ∈ ((m.«recall» now query limit).2).map (fun e => e.id) → p ≠ q →
      ((m.«recall» now query limit).1).longTerm.network.getStrength p q =
        qmin m.longTerm.network.maxStrength
          (qadd (m.longTerm.network.getStrength p q) (mkRat 1 10))) ∧
      (∀ p, p ∈ ((m.«recall» now query limit).2).map (fun e => e.id) →
        p ∈ mapKeys (HebbianNetwork.toJSON
          ((m.«recall» now query limit).1).longTerm.network)) := by
  have hids := recall_ids_nodup m now query limit
  have hlen : 1 < (((m.«recall» now query limit).2).map (fun e => e.id)).length := by
    rw [List.length_map]
    omega
  have hnet : ((m.«recall» now query limit).1).longTerm.network =
      if 1 < (((m.«recall» now query limit).2).map (fun e => e.id)).length then
        HebbianNetwork.coActivate m.longTerm.network
          (((m.«recall» now query limit).2).map (fun e => e.id))
      else m.longTerm.network := rfl
  constructor
  · intro p q hp hq hpq
    rw [hnet, if_pos hlen]
    exact HebbianNetwork.getStrength_coActivate_mem _ _ hids p q hp hq hpq
  · intro p hp
    rw [hnet, if_pos hlen]
    exact HebbianNetwork.mem_keys_coActivate _ _ hlen p hp

/-- A manager remembering one long-term and one working-set fact that share
query vocabulary. -/
def recallWitnessManager : MemoryManager :=
  (((MemoryManager.init "p" 10).remember "A" 0 "cache architecture in long term"
      (mkRat 9 10) []).1.remember "B" 1 "cache architecture in short term"
    (mkRat 5 10) []).1

/-- Witness for C10: recalling "cache architecture" returns the long-term
entry `A` and the working-set entry `B`; the pair is strengthened to `0.1`
in the long-term graph, `B` becomes a node of the persisted mapping, and no
long-term entry with id `B` exists. -/
theorem recall_coactivation_witness :
    ((recallWitnessManager.«recall» 2 "cache architecture" 10).1.longTerm.network.getStrength
        "A" "B" =
      qmin recallWitnessManager.longTerm.network.maxStrength
        (qadd (recallWitnessManager.longTerm.network.getStrength "A" "B") (mkRat 1 10))) ∧
      ("B" ∈ mapKeys (HebbianNetwork.toJSON
        (recallWitnessManager.«recall» 2 "cache architecture" 10).1.longTerm.network)) ∧
      mapLookup recallWitnessManager.longTerm.entries "B" = none := by
  have h := recall_coactivation recallWitnessManager 2 "cache architecture" 10
    (by decide)
  exact ⟨h.1 "A" "B" (by decide) (by decide) (by decide), h.2 "B" (by decide),
    by decide⟩

/-- C9: `load()` against a failed read (missing file) or a failed parse
(corrupt document) leaves the store exactly as it was — on the store being
initialized, that is empty — and returns normally, reporting nothing to the
caller (the model's `load` is a total function into the store alone, as the
source's `catch` swallows both failure modes). -/
theorem load_failure_recovery :
    (∀ (lt : LongTermMemory) (err : String), lt.load (Except.error err) = lt) ∧
      (∀ (path : String) (pruneThreshold : ℚ) (maxEntries : ℕ) (err : String),
        (LongTermMemory.init path pruneThreshold maxEntries).load (Except.error err) =
            LongTermMemory.init path pruneThreshold maxEntries ∧
          ((LongTermMemory.init path pruneThreshold maxEntries).load
              (Except.error err)).size = 0) := by
  constructor
  · intro lt err
    unfold LongTermMemory.load
    by_cases h : lt.storagePath = ""
    · rw [if_pos h]
    · rw [if_neg h]
  · intro path pruneThreshold maxEntries err
    constructor
    · unfold LongTermMemory.load
      by_cases h : (LongTermMemory.init path pruneThreshold maxEntries).storagePath = ""
      · rw [if_pos h]
      · rw [if_neg h]
    · unfold LongTermMemory.load
      by_cases h : (LongTermMemory.init path pruneThreshold maxEntries).storagePath = ""
      · rw [if_pos h]; rfl
      · rw [if_neg h]; rfl

end MemCore
